import Mathlib

/-!
# Breadth-first traversal of an adjacency matrix (`src/lab.cpp`)

A shallow embedding of `BFS(int start, vector<vector<int>>& matrix)` and the
properties of its output.

Modelling choices
* `vector<vector<int>>` is `List (List Int)`; `vector<bool>` is `List Bool`;
  `queue<int>` is a `List Nat` whose head is the front.
* `int n = matrix.size()` is taken as the natural number `matrix.length`: a
  square matrix of `V` rows of `V` four-byte entries needs `4·V·V` bytes, so any
  square matrix that exists in a 64-bit address space has `V < 2^31` and the
  conversion to `int` is exact.  The loop counter `j` only runs over `0..n-1`,
  so no arithmetic on machine integers can overflow.
* Indexing a `vector` out of range is undefined behaviour in C++.  The
  embedding is total: every indexing is checked and an out-of-range access
  stops the run with a `Fault` that records the access and what had been
  emitted up to that point.
* The `while` loop is run with fuel; `BFS` supplies `matrix.length` units and
  the development proves that this is always enough on well-formed input.
* What is written to `cout` is modelled by the list `out` of emitted vertices;
  the prompt text and separators are not modelled.
* `checks` and `pushes` are instrumentation: the number of evaluations of
  `matrix[node][j] == 1` and the log of the arguments of `q.push`.
* The loading loop of `main` is `loadLoop` over the list of the `E` pairs read
  from `cin`; its two assignments are checked in the same way.
-/

namespace Lab

/-! ## Data model -/

/-- An access to a container outside its bounds. -/
inductive Access where
  /-- `visited[start] = true` with `start` outside `[0, size)`. -/
  | visitedStart (start : Int) (size : Nat)
  /-- `matrix[node]` with `node ≥ matrix.size()`. -/
  | matrixRow (node size : Nat)
  /-- `matrix[node][j]` with `j ≥ matrix[node].size()`. -/
  | matrixCol (node j size : Nat)
  /-- `visited[j]` with `j ≥ visited.size()`. -/
  | visitedAt (j size : Nat)
  deriving DecidableEq, Repr

/-- Why a run of the embedding stopped without returning. -/
inductive Stop where
  /-- Undefined behaviour: an out-of-range access. -/
  | outOfBounds (a : Access)
  /-- The fuel of the `while` loop ran out. -/
  | outOfFuel
  deriving DecidableEq, Repr

/-- A stopped run: the reason, and the vertices emitted before it. -/
structure Fault where
  stop : Stop
  emitted : List Nat
  deriving DecidableEq, Repr

/-- The variables of `BFS` at the head of the `while` loop, the matrix it was
handed by reference, the output written so far, and the instrumentation. -/
structure State where
  /-- The caller's matrix (`vector<vector<int>>& matrix`). -/
  matrix : List (List Int)
  /-- The variable `vector<bool> visited`. -/
  visited : List Bool
  /-- The variable `queue<int> q`, front first. -/
  q : List Nat
  /-- The vertices written to `cout` so far. -/
  out : List Nat
  /-- Instrumentation: evaluations of `matrix[node][j] == 1` so far. -/
  checks : Nat
  /-- Instrumentation: arguments of `q.push` so far, in order. -/
  pushes : List Nat
  deriving DecidableEq, Repr

/-! ## The code -/

/-- One iteration of the body of `for (int j = 0; j < n; j++)`:
`if (matrix[node][j] == 1 && !visited[j]) { visited[j] = true; q.push(j); }`.
The right operand of `&&` is evaluated only when the left one is true. -/
def scanBody (node j : Nat) (st : State) : Except Fault State :=
  match st.matrix[node]? with
  | none => .error ⟨.outOfBounds (.matrixRow node st.matrix.length), st.out⟩
  | some row =>
    match row[j]? with
    | none => .error ⟨.outOfBounds (.matrixCol node j row.length), st.out⟩
    | some e =>
      let st1 := { st with checks := st.checks + 1 }
      if e = 1 then
        match st1.visited[j]? with
        | none => .error ⟨.outOfBounds (.visitedAt j st1.visited.length), st1.out⟩
        | some b =>
          if b = false then
            .ok { st1 with visited := st1.visited.set j true,
                           q := st1.q ++ [j],
                           pushes := st1.pushes ++ [j] }
          else .ok st1
      else .ok st1

/-- The loop `for (int j = 0; j < n; j++) ...` from the current `j` on, with
`k = n - j` iterations left. -/
def scanLoop (node : Nat) : Nat → Nat → State → Except Fault State
  | 0, _, st => .ok st
  | k + 1, j, st =>
    match scanBody node j st with
    | .error f => .error f
    | .ok st1 => scanLoop node k (j + 1) st1

/-- The body of the `while` loop for a non-empty queue whose front is `node`:
`q.pop(); cout << node << " ";` and the scan of columns `0..n-1`. -/
def whileBody (n node : Nat) (rest : List Nat) (st : State) : Except Fault State :=
  scanLoop node n 0 { st with q := rest, out := st.out ++ [node] }

/-- The loop `while (!q.empty()) ...`, run with the given fuel. -/
def whileLoop (n : Nat) : Nat → State → Except Fault State
  | 0, st =>
    match st.q with
    | [] => .ok st
    | _ :: _ => .error ⟨.outOfFuel, st.out⟩
  | fuel + 1, st =>
    match st.q with
    | [] => .ok st
    | node :: rest =>
      match whileBody n node rest st with
      | .error f => .error f
      | .ok st1 => whileLoop n fuel st1

/-- The state at the first test of the `while` condition:
`visited(n, false); visited[start] = true; q.push(start);`. -/
def initState (n start : Nat) (matrix : List (List Int)) : State :=
  { matrix := matrix,
    visited := (List.replicate n false).set start true,
    q := [start],
    out := [],
    checks := 0,
    pushes := [start] }

/-- The function `BFS` run with the given fuel for its `while` loop.  The
result is the state when the loop exits. -/
def BFSFuel (fuel : Nat) (start : Int) (matrix : List (List Int)) :
    Except Fault State :=
  let n := matrix.length
  if 0 ≤ start ∧ start < (n : Int) then
    whileLoop n fuel (initState n start.toNat matrix)
  else
    .error ⟨.outOfBounds (.visitedStart start n), []⟩

/-- The function `BFS(start, matrix)`. -/
def BFS (start : Int) (matrix : List (List Int)) : Except Fault State :=
  BFSFuel matrix.length start matrix

/-- The sequence a finished run wrote to `cout`, if the run finished. -/
def output (r : Except Fault State) : Option (List Nat) :=
  match r with
  | .ok st => some st.out
  | .error _ => none

/-! ## Vocabulary of the properties -/

/-- The matrix has `V` rows, each of length `V`. -/
def Square (m : List (List Int)) (V : Nat) : Prop :=
  m.length = V ∧ ∀ row ∈ m, row.length = V

instance (m : List (List Int)) (V : Nat) : Decidable (Square m V) := by
  unfold Square; infer_instance

/-- The test `matrix[a][b] == 1`, false outside the matrix. -/
def edge (m : List (List Int)) (a b : Nat) : Bool :=
  match m[a]? with
  | none => false
  | some row =>
    match row[b]? with
    | none => false
    | some e => decide (e = 1)

/-- Vertices `s = v0, v1, ..., vk = v`, all in `[0, V)`, with
`matrix[v_i][v_{i+1}] == 1` for every `i`: a walk of `k` edges from `s` to `v`. -/
inductive Walk (m : List (List Int)) (V : Nat) (s : Nat) : Nat → Nat → Prop where
  | start : s < V → Walk m V s s 0
  | snoc {u v k : Nat} : Walk m V s u k → v < V → edge m u v = true →
      Walk m V s v (k + 1)

/-- The vertex `v` is reachable from `s`. -/
def Reachable (m : List (List Int)) (V : Nat) (s v : Nat) : Prop :=
  ∃ k, Walk m V s v k

/-- The list `p` is a sequence `s = v0, v1, ..., vk = v` of indices in `[0, V)`
with `matrix[v_i][v_{i+1}] == 1` for every `i`. -/
def IsPath (m : List (List Int)) (V : Nat) (s v : Nat) (p : List Nat) : Prop :=
  p.head? = some s ∧ p.getLast? = some v ∧ (∀ x ∈ p, x < V) ∧
    p.Chain' (fun a b => edge m a b = true)

/-- The shortest-hop distance from `s` to `v` is `d`. -/
def IsDist (m : List (List Int)) (V : Nat) (s v d : Nat) : Prop :=
  Walk m V s v d ∧ ∀ k, Walk m V s v k → d ≤ k

/-- The earliest-emitted vertex `p` with `matrix[p][x] == 1`. -/
def parent (m : List (List Int)) (out : List Nat) (x : Nat) : Option Nat :=
  out.find? (fun p => edge m p x)

/-- Whether `visited[j]` holds `true`; false outside the vector. -/
def marked (vis : List Bool) (j : Nat) : Bool :=
  vis.getD j false

/-- The columns `i` of `j, j+1, ..., j+k-1`, in ascending order, with
`matrix[node][i] == 1` and `visited[i]` not set. -/
def fresh (m : List (List Int)) (vis : List Bool) (node j k : Nat) : List Nat :=
  (List.range' j k).filter (fun i => edge m node i && !marked vis i)

/-- The emitted vertices followed by the queue, front to back. -/
def State.seen (st : State) : List Nat :=
  st.out ++ st.q

/-- The invariant of the `while` loop of `BFS s m` on a `V × V` matrix, at the
head of the loop. -/
structure Inv (m : List (List Int)) (V s : Nat) (st : State) : Prop where
  /-- The matrix is the one the call was given. -/
  matrix_eq : st.matrix = m
  /-- The vector `visited` has `V` entries. -/
  vis_len : st.visited.length = V
  /-- No vertex occurs twice among the emitted and the queued ones. -/
  nodup : st.seen.Nodup
  /-- The emitted and queued vertices are exactly the marked ones. -/
  mem_iff : ∀ v, v ∈ st.seen ↔ marked st.visited v = true
  /-- The start vertex comes first. -/
  head : ∃ t, st.seen = s :: t
  /-- Every push so far is an emitted or queued vertex, in the same order. -/
  pushes_eq : st.pushes = st.seen
  /-- Each dequeue so far was followed by `V` edge checks. -/
  checks_eq : st.checks = V * st.out.length
  /-- All neighbours of an emitted vertex are emitted or queued. -/
  closed : ∀ u ∈ st.out, ∀ w, w < V → edge m u w = true → w ∈ st.seen
  /-- Every vertex other than the start has a parent, which comes before it. -/
  par : ∀ x ∈ st.seen, x ≠ s →
    ∃ p, parent m st.out x = some p ∧ st.seen.indexOf p < st.seen.indexOf x
  /-- Vertices are ordered by their parents first and by index second. -/
  ord : ∀ u ∈ st.seen, ∀ v ∈ st.seen, u ≠ s → v ≠ s → u ≠ v →
    ∀ pu pv, parent m st.out u = some pu → parent m st.out v = some pv →
      (st.seen.indexOf u < st.seen.indexOf v ↔
        st.seen.indexOf pu < st.seen.indexOf pv ∨ (pu = pv ∧ u < v))
  /-- Every emitted or queued vertex is reachable from the start. -/
  reach : ∀ x ∈ st.seen, Reachable m V s x

/-- The matrix with `V = 3` and the single undirected edge `0 - 1`. -/
def m3 : List (List Int) := [[0, 1, 0], [1, 0, 0], [0, 0, 0]]

/-- The matrix with `V = 1` and no edge. -/
def m1 : List (List Int) := [[0]]

/-- The fully connected graph on four vertices. -/
def k4 : List (List Int) := [[0, 1, 1, 1], [1, 0, 1, 1], [1, 1, 0, 1], [1, 1, 1, 0]]

/-- The entry `matrix[i][j]`, if `i` and `j` are in range. -/
def entry (m : List (List Int)) (i j : Nat) : Option Int :=
  match m[i]? with
  | none => none
  | some row => row[j]?

/-- The states at the head of the `while` loop in the run of `BFS(s, m)`: the
state at the first test of the condition, and every state one iteration of the
loop leads to from such a state with a non-empty queue. -/
inductive AtHead (m : List (List Int)) (s : Nat) : State → Prop where
  | init : AtHead m s (initState m.length s m)
  | step {st st1 : State} {node : Nat} {rest : List Nat} :
      AtHead m s st → st.q = node :: rest →
      whileBody m.length node rest st = .ok st1 → AtHead m s st1

/-- Two states with the same queue, the same output and the same marks. -/
def SameView (a b : State) : Prop :=
  a.q = b.q ∧ a.out = b.out ∧ ∀ i, marked a.visited i = marked b.visited i

/-! ## The loading loop of `main` -/

/-- An out-of-range access of the loading loop. -/
inductive LoadFault where
  /-- `matrix[u]` with `u` outside `[0, size)`. -/
  | row (u : Int) (size : Nat)
  /-- `matrix[u][v]` with `v` outside `[0, size)`. -/
  | col (u v : Int) (size : Nat)
  deriving DecidableEq, Repr

/-- The assignment `matrix[u][v] = 1`. -/
def setOne (matrix : List (List Int)) (u v : Int) :
    Except LoadFault (List (List Int)) :=
  if 0 ≤ u ∧ u < (matrix.length : Int) then
    match matrix[u.toNat]? with
    | none => .error (.row u matrix.length)
    | some row =>
      if 0 ≤ v ∧ v < (row.length : Int) then
        .ok (matrix.set u.toNat (row.set v.toNat 1))
      else .error (.col u v row.length)
  else .error (.row u matrix.length)

/-- The loop `for (int i = 0; i < E; i++) { cin >> u >> v; matrix[u][v] = 1;
matrix[v][u] = 1; }` over the `E` pairs it reads. -/
def loadLoop : List (Int × Int) → List (List Int) → Except LoadFault (List (List Int))
  | [], matrix => .ok matrix
  | (u, v) :: ps, matrix =>
    match setOne matrix u v with
    | .error f => .error f
    | .ok m1 =>
      match setOne m1 v u with
      | .error f => .error f
      | .ok m2 => loadLoop ps m2

/-- The declaration `vector<vector<int>> matrix(V, vector<int>(V, 0))` followed
by the loading loop. -/
def loadMatrix (V : Nat) (pairs : List (Int × Int)) :
    Except LoadFault (List (List Int)) :=
  loadLoop pairs (List.replicate V (List.replicate V 0))

/-- The matrix `m3` with entries `2` and `-1` in place of some zeros. -/
def m3odd : List (List Int) := [[0, 1, 2], [1, 0, -1], [2, -1, 0]]

/-- The matrix `m3` with a self-loop at every vertex. -/
def m3loops : List (List Int) := [[1, 1, 0], [1, 1, 0], [0, 0, 1]]

end Lab

namespace Lab

/-! ## The scan of one row -/

theorem marked_set (vis : List Bool) (j i : Nat) (hj : j < vis.length) :
    marked (vis.set j true) i = (decide (i = j) || marked vis i) := by
  unfold marked
  simp only [List.getD_eq_getElem?_getD, List.getElem?_set]
  by_cases h : j = i
  · subst h; simp [hj]
  · have h2 : ¬ i = j := fun e => h e.symm
    simp [h, h2]

theorem marked_lt {vis : List Bool} {j : Nat} (h : marked vis j = true) :
    j < vis.length := by
  unfold marked at h
  by_contra hn
  have : vis[j]? = none := List.getElem?_eq_none (Nat.le_of_not_lt hn)
  simp [List.getD_eq_getElem?_getD, this] at h

theorem getElem?_of_marked (vis : List Bool) (j : Nat) (hj : j < vis.length) :
    vis[j]? = some (marked vis j) := by
  unfold marked
  simp [List.getD_eq_getElem?_getD, List.getElem?_eq_getElem hj]

theorem edge_row {m : List (List Int)} {V node : Nat} (hsq : Square m V)
    (hnode : node < V) : ∃ row, m[node]? = some row ∧ row.length = V := by
  have hlt : node < m.length := by rw [hsq.1]; exact hnode
  refine ⟨m[node], List.getElem?_eq_getElem hlt, hsq.2 _ (List.getElem_mem hlt)⟩

/-- On a square matrix one iteration of the scan never faults, and pushes `j`
exactly when `matrix[node][j] == 1` and `j` is not marked. -/
theorem scanBody_ok {m : List (List Int)} {V node j : Nat} (hsq : Square m V)
    (hnode : node < V) (hj : j < V) (st : State) (hm : st.matrix = m)
    (hvis : st.visited.length = V) :
    scanBody node j st = .ok
      (if (edge m node j && !marked st.visited j) = true then
        { st with checks := st.checks + 1, visited := st.visited.set j true,
                  q := st.q ++ [j], pushes := st.pushes ++ [j] }
       else { st with checks := st.checks + 1 }) := by
  obtain ⟨row, hrow, hlen⟩ := edge_row hsq hnode
  have hjr : j < row.length := by rw [hlen]; exact hj
  have hjv : j < st.visited.length := by rw [hvis]; exact hj
  have he : row[j]? = some row[j] := List.getElem?_eq_getElem hjr
  have hv := getElem?_of_marked st.visited j hjv
  unfold scanBody edge
  simp only [hm, hrow, he, hv]
  by_cases h1 : row[j] = 1
  · cases hb : marked st.visited j <;> simp [h1, hb]
  · simp [h1]

theorem fresh_succ (m : List (List Int)) (vis : List Bool) (node j k : Nat) :
    fresh m vis node j (k + 1) =
      if (edge m node j && !marked vis j) = true then j :: fresh m vis node (j + 1) k
      else fresh m vis node (j + 1) k := by
  unfold fresh
  rw [List.range'_succ, List.filter_cons]

theorem fresh_set (m : List (List Int)) (vis : List Bool) (node j k : Nat)
    (hj : j < vis.length) :
    fresh m (vis.set j true) node (j + 1) k = fresh m vis node (j + 1) k := by
  unfold fresh
  apply List.filter_congr
  intro i hi
  have hi2 : j + 1 ≤ i := (List.mem_range'_1.mp hi).1
  have hne : ¬ i = j := by omega
  rw [marked_set vis j i hj]
  simp [hne]

theorem mem_fresh {m : List (List Int)} {vis : List Bool} {node j k i : Nat} :
    i ∈ fresh m vis node j k ↔
      (j ≤ i ∧ i < j + k) ∧ edge m node i = true ∧ marked vis i = false := by
  unfold fresh
  simp [List.mem_filter, List.mem_range'_1]

/-- On a square matrix the scan of row `node` never faults; it appends the
unmarked neighbours of `node`, in ascending order, to the queue, marks them,
and leaves the matrix and the output alone. -/
theorem scanLoop_ok {m : List (List Int)} {V node : Nat} (hsq : Square m V)
    (hnode : node < V) :
    ∀ (k j : Nat) (st : State), j + k = V → st.matrix = m → st.visited.length = V →
      ∃ st1, scanLoop node k j st = .ok st1 ∧ st1.matrix = m ∧ st1.out = st.out ∧
        st1.visited.length = V ∧
        st1.q = st.q ++ fresh m st.visited node j k ∧
        st1.pushes = st.pushes ++ fresh m st.visited node j k ∧
        st1.checks = st.checks + k ∧
        ∀ i, marked st1.visited i =
          (marked st.visited i || decide (i ∈ fresh m st.visited node j k)) := by
  intro k
  induction k with
  | zero =>
    intro j st _ hm hvis
    refine ⟨st, rfl, hm, rfl, hvis, ?_, ?_, rfl, ?_⟩ <;> simp [fresh]
  | succ k ih =>
    intro j st hjk hm hvis
    have hj : j < V := by omega
    have hjv : j < st.visited.length := by rw [hvis]; exact hj
    have hbody := scanBody_ok hsq hnode hj st hm hvis
    rw [fresh_succ]
    by_cases hc : (edge m node j && !marked st.visited j) = true
    · rw [if_pos hc] at hbody
      obtain ⟨st1, hrun, h1, h2, h3, h4, h5, h6, h7⟩ :=
        ih (j + 1) _ (by omega) (show State.matrix
          { st with checks := st.checks + 1, visited := st.visited.set j true,
                    q := st.q ++ [j], pushes := st.pushes ++ [j] } = m from hm)
          (by simp [hvis])
      simp only [fresh_set m st.visited node j k hjv] at h4 h5 h7
      refine ⟨st1, ?_, h1, h2, h3, ?_, ?_, ?_, ?_⟩
      · simp only [scanLoop, hbody]; exact hrun
      · rw [h4, if_pos hc]; simp
      · rw [h5, if_pos hc]; simp
      · rw [h6]; simp only; omega
      · intro i
        rw [h7 i, if_pos hc, marked_set st.visited j i hjv]
        by_cases hij : i = j <;> simp [hij]
    · rw [if_neg hc] at hbody
      obtain ⟨st1, hrun, h1, h2, h3, h4, h5, h6, h7⟩ :=
        ih (j + 1) _ (by omega) (show State.matrix
          { st with checks := st.checks + 1 } = m from hm) hvis
      refine ⟨st1, ?_, h1, h2, h3, ?_, ?_, ?_, ?_⟩
      · simp only [scanLoop, hbody]; exact hrun
      · rw [h4, if_neg hc]
      · rw [h5, if_neg hc]
      · rw [h6]; simp only; omega
      · intro i
        rw [h7 i, if_neg hc]

/-- On a square matrix one iteration of the `while` loop never faults: it
emits the front of the queue and appends its unmarked neighbours. -/
theorem whileBody_ok {m : List (List Int)} {V node : Nat} (hsq : Square m V)
    (hnode : node < V) (rest : List Nat) (st : State) (hm : st.matrix = m)
    (hvis : st.visited.length = V) :
    ∃ st1, whileBody V node rest st = .ok st1 ∧ st1.matrix = m ∧
      st1.out = st.out ++ [node] ∧ st1.visited.length = V ∧
      st1.q = rest ++ fresh m st.visited node 0 V ∧
      st1.pushes = st.pushes ++ fresh m st.visited node 0 V ∧
      st1.checks = st.checks + V ∧
      ∀ i, marked st1.visited i =
        (marked st.visited i || decide (i ∈ fresh m st.visited node 0 V)) := by
  unfold whileBody
  exact scanLoop_ok hsq hnode V 0 { st with q := rest, out := st.out ++ [node] }
    (by omega) hm hvis

/-! ## Lists: positions and first matches -/

theorem parent_append_some {m : List (List Int)} {out : List Nat} {x p : Nat}
    (l : List Nat) (h : parent m out x = some p) : parent m (out ++ l) x = some p := by
  unfold parent at *
  rw [List.find?_append, h]; rfl

theorem parent_append_none {m : List (List Int)} {out : List Nat} {x node : Nat}
    (h : parent m out x = none) (he : edge m node x = true) :
    parent m (out ++ [node]) x = some node := by
  unfold parent at *
  rw [List.find?_append, h]
  simp [List.find?, he]

theorem parent_mem {m : List (List Int)} {out : List Nat} {x p : Nat}
    (h : parent m out x = some p) : p ∈ out ∧ edge m p x = true := by
  unfold parent at h
  exact ⟨List.mem_of_find?_eq_some h, by simpa using List.find?_some h⟩

/-- The parent is the first emitted vertex with an edge to `x`. -/
theorem parent_first {m : List (List Int)} {out : List Nat} {x p w : Nat}
    (h : parent m out x = some p) (hw : w ∈ out) (he : edge m w x = true) :
    out.indexOf p ≤ out.indexOf w := by
  unfold parent at h
  obtain ⟨hpe, as, bs, rfl, hall⟩ := List.find?_eq_some.mp h
  have hp : p ∉ as := by
    intro hmem
    have := hall p hmem
    simp [hpe] at this
  have hwn : w ∉ as := by
    intro hmem
    have := hall w hmem
    simp [he] at this
  rw [List.indexOf_append_of_not_mem hp, List.indexOf_append_of_not_mem hwn]
  simp

theorem indexOf_sorted {F : List Nat} (hs : F.Pairwise (· < ·)) {u v : Nat}
    (hu : u ∈ F) (hv : v ∈ F) : F.indexOf u < F.indexOf v ↔ u < v := by
  induction F with
  | nil => simp at hu
  | cons a t ih =>
    rw [List.pairwise_cons] at hs
    by_cases hua : u = a
    · by_cases hva : v = a
      · subst hua; subst hva; simp
      · have hvt : v ∈ t := by
          rcases List.mem_cons.mp hv with h | h
          · exact absurd h hva
          · exact h
        have := hs.1 v hvt
        subst hua
        have hne : ¬ u = v := fun e => hva e.symm
        simp [List.indexOf_cons, hne, this]
    · have hut : u ∈ t := by
        rcases List.mem_cons.mp hu with h | h
        · exact absurd h hua
        · exact h
      have hau : ¬ a = u := fun e => hua e.symm
      by_cases hva : v = a
      · subst hva
        have := hs.1 u hut
        simp [List.indexOf_cons, hau]
        omega
      · have hvt : v ∈ t := by
          rcases List.mem_cons.mp hv with h | h
          · exact absurd h hva
          · exact h
        have hav : ¬ a = v := fun e => hva e.symm
        simp [List.indexOf_cons, hau, hav, ih hs.2 hut hvt]

theorem fresh_sorted (m : List (List Int)) (vis : List Bool) (node j k : Nat) :
    (fresh m vis node j k).Pairwise (· < ·) := by
  unfold fresh
  apply List.Pairwise.filter
  have := List.pairwise_lt_range' j k
  exact this

/-! ## The loop invariant -/

theorem marked_replicate (V i : Nat) : marked (List.replicate V false) i = false := by
  unfold marked
  simp only [List.getD_eq_getElem?_getD, List.getElem?_replicate]
  by_cases h : i < V <;> simp [h]

/-- The invariant holds when the loop is entered. -/
theorem Inv.init {m : List (List Int)} {V s : Nat} (hs : s < V) :
    Inv m V s (initState V s m) where
  matrix_eq := rfl
  vis_len := by simp [initState]
  nodup := by simp [State.seen, initState]
  mem_iff := by
    intro v
    have hlen : s < (List.replicate V false).length := by simpa using hs
    simp [State.seen, initState, marked_set _ s v hlen, marked_replicate]
  head := ⟨[], by simp [State.seen, initState]⟩
  pushes_eq := by simp [State.seen, initState]
  checks_eq := by simp [initState]
  closed := by intro u hu; simp [initState] at hu
  par := by
    intro x hx hxs
    simp [State.seen, initState] at hx
    exact absurd hx hxs
  ord := by
    intro u hu v _ hus
    simp [State.seen, initState] at hu
    exact absurd hu hus
  reach := by
    intro x hx
    simp [State.seen, initState] at hx
    subst hx
    exact ⟨0, Walk.start hs⟩

/-- One iteration of the `while` loop from a state that satisfies the invariant
does not fault and leads to a state that satisfies the invariant. -/
theorem Inv.step {m : List (List Int)} {V s node : Nat} {rest : List Nat} {st : State}
    (hsq : Square m V) (hinv : Inv m V s st) (hq : st.q = node :: rest) :
    ∃ st1, whileBody V node rest st = .ok st1 ∧ Inv m V s st1 ∧
      st1.out = st.out ++ [node] ∧
      st1.q = rest ++ fresh m st.visited node 0 V ∧
      ∀ i, marked st1.visited i =
        (marked st.visited i || decide (i ∈ fresh m st.visited node 0 V)) := by
  have hseen : st.seen = st.out ++ node :: rest := by simp [State.seen, hq]
  have hnodeL : node ∈ st.seen := by rw [hseen]; simp
  have hnodeV : node < V := by
    have := marked_lt ((hinv.mem_iff node).mp hnodeL)
    rwa [hinv.vis_len] at this
  obtain ⟨st1, hrun, h1, h2, h3, h4, h5, h6, h7⟩ :=
    whileBody_ok hsq hnodeV rest st hinv.matrix_eq hinv.vis_len
  generalize hF : fresh m st.visited node 0 V = F at h4 h5 h7
  have hFmem : ∀ x, x ∈ F ↔ x < V ∧ edge m node x = true ∧ marked st.visited x = false := by
    intro x; rw [← hF, mem_fresh]; simp
  have hFsorted : F.Pairwise (· < ·) := by rw [← hF]; exact fresh_sorted _ _ _ _ _
  have hseen1 : st1.seen = st.seen ++ F := by simp [State.seen, h2, h4, hq]
  have hFnot : ∀ x ∈ F, x ∉ st.seen := by
    intro x hx hmem
    have := ((hFmem x).mp hx).2.2
    rw [(hinv.mem_iff x).mp hmem] at this
    cases this
  have hnode_out : node ∉ st.out := by
    have := hinv.nodup
    rw [hseen] at this
    intro hmem
    exact (List.nodup_append.mp this).2.2 hmem (List.mem_cons_self _ _)
  have hout_seen : ∀ p ∈ st.out, p ∈ st.seen := by
    intro p hp; rw [hseen]; exact List.mem_append_left _ hp
  have hidx_node : st.seen.indexOf node = st.out.length := by
    rw [hseen, List.indexOf_append_of_not_mem hnode_out]; simp
  have hidx_out : ∀ p ∈ st.out, st.seen.indexOf p < st.out.length := by
    intro p hp
    rw [hseen, List.indexOf_append_of_mem hp]
    exact List.indexOf_lt_length.mpr hp
  have hidxL : ∀ x ∈ st.seen, (st.seen ++ F).indexOf x = st.seen.indexOf x ∧
      st.seen.indexOf x < st.seen.length := by
    intro x hx
    exact ⟨List.indexOf_append_of_mem hx, List.indexOf_lt_length.mpr hx⟩
  have hidxF : ∀ x ∈ F, (st.seen ++ F).indexOf x = st.seen.length + F.indexOf x := by
    intro x hx
    exact List.indexOf_append_of_not_mem (hFnot x hx)
  have hparL : ∀ x p, parent m st.out x = some p →
      parent m (st.out ++ [node]) x = some p := fun x p h => parent_append_some _ h
  have hparF : ∀ x ∈ F, parent m (st.out ++ [node]) x = some node := by
    intro x hx
    have hx2 := (hFmem x).mp hx
    apply parent_append_none _ hx2.2.1
    cases hpo : parent m st.out x with
    | none => rfl
    | some p =>
      exfalso
      have := parent_mem hpo
      exact hFnot x hx (hinv.closed p this.1 x hx2.1 this.2)
  refine ⟨st1, hrun, ?_, h2, h4, h7⟩
  · refine ⟨h1, h3, ?_, ?_, ?_, ?_, ?_, ?_, ?_, ?_, ?_⟩
    · -- nodup
      rw [hseen1, List.nodup_append]
      refine ⟨hinv.nodup, ?_, ?_⟩
      · exact hFsorted.imp (fun h => Nat.ne_of_lt h)
      · intro x hx hxF
        exact hFnot x hxF hx
    · -- mem_iff
      intro v
      rw [hseen1, List.mem_append, h7 v, hinv.mem_iff v]
      simp
    · -- head
      obtain ⟨t, ht⟩ := hinv.head
      exact ⟨t ++ F, by rw [hseen1, ht]; rfl⟩
    · -- pushes
      rw [h5, hinv.pushes_eq, hseen1]
    · -- checks
      rw [h6, hinv.checks_eq, h2]
      simp [Nat.mul_add]
    · -- closed
      intro u hu w hw he
      rw [h2, List.mem_append] at hu
      rw [hseen1, List.mem_append]
      rcases hu with hu | hu
      · exact Or.inl (hinv.closed u hu w hw he)
      · simp at hu
        subst hu
        cases hmw : marked st.visited w with
        | true => exact Or.inl ((hinv.mem_iff w).mpr hmw)
        | false => exact Or.inr ((hFmem w).mpr ⟨hw, he, hmw⟩)
    · -- par
      intro x hx hxs
      rw [hseen1, List.mem_append] at hx
      rw [hseen1, h2]
      rcases hx with hx | hx
      · obtain ⟨p, hp, hlt⟩ := hinv.par x hx hxs
        have hpL := hout_seen p (parent_mem hp).1
        refine ⟨p, hparL x p hp, ?_⟩
        rw [(hidxL p hpL).1, (hidxL x hx).1]
        exact hlt
      · refine ⟨node, hparF x hx, ?_⟩
        rw [(hidxL node hnodeL).1, hidxF x hx]
        have := (hidxL node hnodeL).2
        omega
    · -- ord
      intro u hu v hv hus hvs huv pu pv hpu hpv
      rw [hseen1, List.mem_append] at hu hv
      rw [h2] at hpu hpv
      rw [hseen1]
      rcases hu with hu | hu <;> rcases hv with hv | hv
      · obtain ⟨pu1, hpu1, _⟩ := hinv.par u hu hus
        obtain ⟨pv1, hpv1, _⟩ := hinv.par v hv hvs
        have e1 : pu = pu1 := Option.some.inj (hpu.symm.trans (hparL u pu1 hpu1))
        have e2 : pv = pv1 := Option.some.inj (hpv.symm.trans (hparL v pv1 hpv1))
        subst e1; subst e2
        have hpuL := hout_seen pu (parent_mem hpu1).1
        have hpvL := hout_seen pv (parent_mem hpv1).1
        rw [(hidxL u hu).1, (hidxL v hv).1, (hidxL pu hpuL).1, (hidxL pv hpvL).1]
        exact hinv.ord u hu v hv hus hvs huv pu pv hpu1 hpv1
      · obtain ⟨pu1, hpu1, _⟩ := hinv.par u hu hus
        have e1 : pu = pu1 := Option.some.inj (hpu.symm.trans (hparL u pu1 hpu1))
        have e2 : pv = node := Option.some.inj (hpv.symm.trans (hparF v hv))
        subst e1; subst e2
        have hpuO := (parent_mem hpu1).1
        have hpuL := hout_seen pu hpuO
        rw [(hidxL u hu).1, hidxF v hv, (hidxL pu hpuL).1, (hidxL pv hnodeL).1]
        have a1 := (hidxL u hu).2
        have a2 := hidx_out pu hpuO
        constructor
        · intro _; left; omega
        · intro _; omega
      · obtain ⟨pv1, hpv1, _⟩ := hinv.par v hv hvs
        have e1 : pu = node := Option.some.inj (hpu.symm.trans (hparF u hu))
        have e2 : pv = pv1 := Option.some.inj (hpv.symm.trans (hparL v pv1 hpv1))
        subst e1; subst e2
        have hpvO := (parent_mem hpv1).1
        have hpvL := hout_seen pv hpvO
        rw [hidxF u hu, (hidxL v hv).1, (hidxL pu hnodeL).1, (hidxL pv hpvL).1]
        have a1 := (hidxL v hv).2
        have a2 := hidx_out pv hpvO
        constructor
        · intro h; omega
        · intro h
          rcases h with h | h
          · omega
          · exact absurd (h.1 ▸ hpvO) hnode_out
      · have e1 : pu = node := Option.some.inj (hpu.symm.trans (hparF u hu))
        have e2 : pv = node := Option.some.inj (hpv.symm.trans (hparF v hv))
        subst e1; subst e2
        rw [hidxF u hu, hidxF v hv]
        have := indexOf_sorted hFsorted hu hv
        constructor
        · intro h; right; exact ⟨rfl, this.mp (by omega)⟩
        · intro h
          rcases h with h | h
          · omega
          · have := this.mpr h.2; omega
    · -- reach
      intro x hx
      rw [hseen1, List.mem_append] at hx
      rcases hx with hx | hx
      · exact hinv.reach x hx
      · obtain ⟨k, hk⟩ := hinv.reach node hnodeL
        have hx2 := (hFmem x).mp hx
        exact ⟨k + 1, Walk.snoc hk hx2.1 hx2.2.1⟩

/-! ## Termination and the final state -/

theorem Inv.seen_lt {m : List (List Int)} {V s : Nat} {st : State}
    (hinv : Inv m V s st) {x : Nat} (hx : x ∈ st.seen) : x < V := by
  have := marked_lt ((hinv.mem_iff x).mp hx)
  rwa [hinv.vis_len] at this

theorem Inv.seen_length {m : List (List Int)} {V s : Nat} {st : State}
    (hinv : Inv m V s st) : st.seen.length ≤ V := by
  have hsub : st.seen ⊆ List.range V := by
    intro x hx
    exact List.mem_range.mpr (hinv.seen_lt hx)
  have := (List.subperm_of_subset hinv.nodup hsub).length_le
  simpa using this

theorem whileLoop_nil (V fuel : Nat) (st : State) (hq : st.q = []) :
    whileLoop V fuel st = .ok st := by
  cases fuel <;> simp [whileLoop, hq]

/-- From a state that satisfies the invariant the loop exits, with the same
final state for every amount of fuel that covers the vertices not yet emitted,
and the final state satisfies the invariant and has an empty queue. -/
theorem whileLoop_ok {m : List (List Int)} {V s : Nat} (hsq : Square m V) :
    ∀ (d : Nat) (st : State), Inv m V s st → V - st.out.length = d →
      ∃ st1, (∀ fuel, V ≤ fuel + st.out.length → whileLoop V fuel st = .ok st1) ∧
        Inv m V s st1 ∧ st1.q = [] := by
  intro d
  induction d using Nat.strong_induction_on with
  | _ d ih =>
    intro st hinv hd
    cases hq : st.q with
    | nil => exact ⟨st, fun fuel _ => whileLoop_nil V fuel st hq, hinv, hq⟩
    | cons node rest =>
      have hlen := hinv.seen_length
      have hlt : st.out.length < V := by
        simp [State.seen, hq] at hlen
        omega
      obtain ⟨st2, hrun, hinv2, hout2, _, _⟩ := Inv.step hsq hinv hq
      have hlen2 : st2.out.length = st.out.length + 1 := by simp [hout2]
      obtain ⟨st1, hall, hinv1, hq1⟩ :=
        ih (V - st2.out.length) (by omega) st2 hinv2 rfl
      refine ⟨st1, ?_, hinv1, hq1⟩
      intro fuel hfuel
      cases fuel with
      | zero => omega
      | succ f =>
        simp only [whileLoop, hq, hrun]
        exact hall f (by omega)

/-- On a square matrix and a start vertex in range, `BFS` returns: the loop
exits with an empty queue in a state that satisfies the invariant, and any
fuel of at least `V` gives that same state. -/
theorem BFS_ok {m : List (List Int)} {V s : Nat} (hsq : Square m V) (hs : s < V) :
    ∃ st, BFS (s : Int) m = .ok st ∧ (∀ fuel, V ≤ fuel → BFSFuel fuel (s : Int) m = .ok st) ∧
      Inv m V s st ∧ st.q = [] ∧ st.seen = st.out := by
  obtain ⟨st, hall, hinv, hq⟩ :=
    whileLoop_ok hsq (V - (initState V s m).out.length) (initState V s m)
      (Inv.init hs) rfl
  have hcond : (0 : Int) ≤ (s : Int) ∧ (s : Int) < ((m.length : Nat) : Int) := by
    rw [hsq.1]
    exact ⟨Int.ofNat_nonneg s, Int.ofNat_lt.mpr hs⟩
  have hfuel : ∀ fuel, V ≤ fuel → BFSFuel fuel (s : Int) m = .ok st := by
    intro fuel hf
    unfold BFSFuel
    rw [if_pos hcond, Int.toNat_ofNat, hsq.1]
    exact hall fuel (by simp [initState]; exact hf)
  refine ⟨st, ?_, hfuel, hinv, hq, by simp [State.seen, hq]⟩
  unfold BFS
  rw [hsq.1]
  exact hfuel V (Nat.le_refl V)

/-! ## Consequences of the invariant at the exit of the loop -/

theorem Inv.start_lt {m : List (List Int)} {V s : Nat} {st : State}
    (hinv : Inv m V s st) : s < V := by
  obtain ⟨t, ht⟩ := hinv.head
  exact hinv.seen_lt (by rw [ht]; exact List.mem_cons_self _ _)

theorem Inv.indexOf_start {m : List (List Int)} {V s : Nat} {st : State}
    (hinv : Inv m V s st) : st.seen.indexOf s = 0 := by
  obtain ⟨t, ht⟩ := hinv.head
  rw [ht]; simp

/-- At the exit of the loop every end point of a walk from the start has been
emitted. -/
theorem Inv.walk_mem {m : List (List Int)} {V s : Nat} {st : State}
    (hinv : Inv m V s st) (hfin : st.seen = st.out) {v k : Nat}
    (hw : Walk m V s v k) : v ∈ st.out := by
  induction hw with
  | start _ =>
    obtain ⟨t, ht⟩ := hinv.head
    rw [← hfin, ht]; exact List.mem_cons_self _ _
  | snoc _ hv he ih =>
    rw [← hfin]
    exact hinv.closed _ ih _ hv he

/-- At the exit of the loop, a vertex emitted no later than `v` is reached by a
walk no longer than any walk to `v`. -/
theorem Inv.layer {m : List (List Int)} {V s : Nat} {st : State}
    (hinv : Inv m V s st) (hfin : st.seen = st.out) :
    ∀ (N u : Nat), u ∈ st.out → st.out.indexOf u = N →
      ∀ v, v ∈ st.out → st.out.indexOf u ≤ st.out.indexOf v →
        ∀ k, Walk m V s v k → ∃ k1, k1 ≤ k ∧ Walk m V s u k1 := by
  intro N
  induction N using Nat.strong_induction_on with
  | _ N ih =>
    intro u hu hN v hv hle k hw
    by_cases hus : u = s
    · subst hus
      exact ⟨0, Nat.zero_le _, Walk.start hinv.start_lt⟩
    · have hs0 : st.out.indexOf s = 0 := by rw [← hfin]; exact hinv.indexOf_start
      have hsmem : s ∈ st.out := by
        obtain ⟨t, ht⟩ := hinv.head
        rw [← hfin, ht]; exact List.mem_cons_self _ _
      have hupos : 0 < st.out.indexOf u := by
        rcases Nat.eq_zero_or_pos (st.out.indexOf u) with h0 | h0
        · exact absurd ((List.indexOf_inj hu hsmem).mp (h0.trans hs0.symm)) hus
        · exact h0
      have hvs : v ≠ s := by
        intro e; subst e; omega
      obtain ⟨pu, hpu, hltu⟩ := hinv.par u (hfin ▸ hu) hus
      obtain ⟨pv, hpv, _⟩ := hinv.par v (hfin ▸ hv) hvs
      rw [hfin] at hltu
      cases hw with
      | start _ => exact absurd rfl hvs
      | snoc hw1 hvV he =>
        rename_i w k0
        have hwmem : w ∈ st.out := hinv.walk_mem hfin hw1
        have h1 : st.out.indexOf pv ≤ st.out.indexOf w := parent_first hpv hwmem he
        have h2 : st.out.indexOf pu ≤ st.out.indexOf pv := by
          by_cases huv : u = v
          · subst huv
            have : pu = pv := Option.some.inj (hpu.symm.trans hpv)
            rw [this]
          · have hlt : st.out.indexOf u < st.out.indexOf v := by
              rcases Nat.lt_or_eq_of_le hle with h | h
              · exact h
              · exact absurd ((List.indexOf_inj hu hv).mp h) huv
            have hord := hinv.ord u (hfin ▸ hu) v (hfin ▸ hv) hus hvs huv pu pv hpu hpv
            rw [hfin] at hord
            rcases hord.mp hlt with h | h
            · exact Nat.le_of_lt h
            · rw [h.1]
        obtain ⟨k1, hk1, hwalk⟩ :=
          ih (st.out.indexOf pu) (by omega) pu (parent_mem hpu).1 rfl w hwmem
            (Nat.le_trans h2 h1) k0 hw1
        exact ⟨k1 + 1, by omega,
          Walk.snoc hwalk (hinv.seen_lt (hfin ▸ hu)) (parent_mem hpu).2⟩

/-- A walk of `k` edges is a sequence of `k + 1` vertices, and conversely. -/
theorem walk_iff_path {m : List (List Int)} {V s : Nat} :
    ∀ {k v : Nat}, Walk m V s v k ↔ ∃ p, p.length = k + 1 ∧ IsPath m V s v p := by
  intro k
  induction k with
  | zero =>
    intro v
    constructor
    · intro hw
      cases hw with
      | start hs =>
        refine ⟨[s], rfl, rfl, rfl, ?_, List.chain'_singleton s⟩
        intro x hx
        simp at hx
        rw [hx]; exact hs
    · rintro ⟨p, hlen, hhead, hlast, hlt, _⟩
      match p, hlen with
      | [a], _ =>
        simp at hhead hlast
        subst hhead
        subst hlast
        exact Walk.start (hlt _ (List.mem_singleton_self _))
  | succ k ih =>
    intro v
    constructor
    · intro hw
      cases hw with
      | snoc hw1 hv he =>
        rename_i u
        obtain ⟨p, hlen, hhead, hlast, hlt, hchain⟩ := ih.mp hw1
        have hne : p ≠ [] := by
          intro e; rw [e] at hlen; simp at hlen
        refine ⟨p ++ [v], by simp [hlen], ?_, List.getLast?_concat p, ?_, ?_⟩
        · rw [List.head?_append_of_ne_nil p hne]; exact hhead
        · intro x hx
          rcases List.mem_append.mp hx with h | h
          · exact hlt x h
          · simp at h; rw [h]; exact hv
        · rw [List.chain'_append]
          refine ⟨hchain, List.chain'_singleton v, ?_⟩
          intro x hx y hy
          rw [hlast] at hx
          simp at hx hy
          subst hx; subst hy
          exact he
    · rintro ⟨p, hlen, hhead, hlast, hlt, hchain⟩
      rcases List.eq_nil_or_concat p with hp | ⟨p1, a, hp⟩
      · rw [hp] at hlen; simp at hlen
      · rw [List.concat_eq_append] at hp
        subst hp
        rw [List.getLast?_concat] at hlast
        have hav : a = v := Option.some.inj hlast
        subst hav
        have hlen1 : p1.length = k + 1 := by simpa using hlen
        have hne : p1 ≠ [] := by
          intro e; rw [e] at hlen1; simp at hlen1
        rw [List.head?_append_of_ne_nil p1 hne] at hhead
        rw [List.chain'_append] at hchain
        obtain ⟨u, hu⟩ : ∃ u, p1.getLast? = some u := by
          cases h : p1.getLast? with
          | none => exact absurd (List.getLast?_eq_none_iff.mp h) hne
          | some u => exact ⟨u, rfl⟩
        have hw1 : Walk m V s u k :=
          ih.mpr ⟨p1, hlen1, hhead, hu, fun x hx => hlt x (List.mem_append_left _ hx),
            hchain.1⟩
        exact Walk.snoc hw1 (hlt a (by simp)) (hchain.2.2 u (by rw [hu]; rfl) a (by simp))

/-- Reachability by walks is reachability by sequences of vertices. -/
theorem reachable_iff_path {m : List (List Int)} {V s v : Nat} :
    Reachable m V s v ↔ ∃ p, IsPath m V s v p := by
  constructor
  · rintro ⟨k, hk⟩
    obtain ⟨p, _, hp⟩ := walk_iff_path.mp hk
    exact ⟨p, hp⟩
  · rintro ⟨p, hp⟩
    have hne : p ≠ [] := by
      intro e
      have := hp.1
      rw [e] at this
      simp at this
    have hpos : 0 < p.length := List.length_pos.mpr hne
    exact ⟨p.length - 1, walk_iff_path.mpr ⟨p, by omega, hp⟩⟩

/-- A reachable vertex has a shortest-hop distance. -/
theorem exists_isDist {m : List (List Int)} {V s v : Nat} (h : Reachable m V s v) :
    ∃ d, IsDist m V s v d := by
  classical
  exact ⟨Nat.find h, Nat.find_spec h, fun k hk => Nat.find_min' h hk⟩

/-! ## The first iteration, and states in which every vertex is marked -/

theorem marked_init (V s i : Nat) (hs : s < V) (m : List (List Int)) :
    marked (initState V s m).visited i = decide (i = s) := by
  have hlen : s < (List.replicate V false).length := by simpa using hs
  simp [initState, marked_set _ s i hlen, marked_replicate]

/-- The call first emits `s` and queues the neighbours of `s` other than `s`
in ascending order; the rest of the run is the loop from that state. -/
theorem BFS_first_step {m : List (List Int)} {V s : Nat} (hsq : Square m V)
    (hs : s < V) :
    ∃ f st2, V = f + 1 ∧ BFS (s : Int) m = whileLoop V f st2 ∧ Inv m V s st2 ∧
      st2.out = [s] ∧
      st2.q = (List.range V).filter (fun i => edge m s i && decide (i ≠ s)) ∧
      ∀ i, marked st2.visited i = (decide (i = s) || (decide (i < V) && edge m s i)) := by
  obtain ⟨f, hf⟩ : ∃ f, V = f + 1 := ⟨V - 1, by omega⟩
  have hq0 : (initState V s m).q = s :: [] := rfl
  obtain ⟨st2, hrun, hinv2, hout2, hq2, hmk⟩ := Inv.step hsq (Inv.init hs) hq0
  have hfresh : fresh m (initState V s m).visited s 0 V =
      (List.range V).filter (fun i => edge m s i && decide (i ≠ s)) := by
    unfold fresh
    rw [List.range_eq_range']
    apply List.filter_congr
    intro i _
    rw [marked_init V s i hs m]
    by_cases h : i = s <;> simp [h]
  have hcond : (0 : Int) ≤ (s : Int) ∧ (s : Int) < ((m.length : Nat) : Int) := by
    rw [hsq.1]
    exact ⟨Int.ofNat_nonneg s, Int.ofNat_lt.mpr hs⟩
  refine ⟨f, st2, hf, ?_, hinv2, by simpa [initState] using hout2, ?_, ?_⟩
  · subst hf
    unfold BFS BFSFuel
    rw [if_pos hcond, Int.toNat_ofNat, hsq.1]
    simp only [whileLoop, hq0, hrun]
  · rw [hq2, hfresh]; rfl
  · intro i
    rw [hmk i, marked_init V s i hs m, hfresh]
    by_cases h : i = s
    · simp [h]
    · by_cases hi : i < V <;> simp [h, hi, List.mem_filter]

/-- Once every vertex is marked, the loop only empties the queue into the
output. -/
theorem whileLoop_drain {m : List (List Int)} {V s : Nat} (hsq : Square m V) :
    ∀ (fuel : Nat) (st : State), Inv m V s st →
      (∀ i, i < V → marked st.visited i = true) → V ≤ fuel + st.out.length →
      ∃ st1, whileLoop V fuel st = .ok st1 ∧ st1.out = st.out ++ st.q := by
  intro fuel
  induction fuel with
  | zero =>
    intro st hinv _ hV
    have hlen := hinv.seen_length
    have hq : st.q = [] := by
      simp [State.seen] at hlen
      exact List.eq_nil_of_length_eq_zero (by omega)
    exact ⟨st, whileLoop_nil V 0 st hq, by simp [hq]⟩
  | succ f ih =>
    intro st hinv hall hV
    cases hq : st.q with
    | nil => exact ⟨st, whileLoop_nil V (f + 1) st hq, by simp⟩
    | cons node rest =>
      obtain ⟨st2, hrun, hinv2, hout2, hq2, hmk⟩ := Inv.step hsq hinv hq
      have hnil : fresh m st.visited node 0 V = [] := by
        apply List.eq_nil_iff_forall_not_mem.mpr
        intro x hx
        have hx2 := mem_fresh.mp hx
        have := hall x (by omega)
        rw [hx2.2.2] at this
        cases this
      rw [hnil] at hq2 hmk
      obtain ⟨st1, hrun1, hout1⟩ := ih st2 hinv2
        (fun i hi => by rw [hmk i, hall i hi]; rfl) (by rw [hout2]; simp; omega)
      refine ⟨st1, ?_, ?_⟩
      · simp only [whileLoop, hq, hrun]; exact hrun1
      · rw [hout1, hout2, hq2]; simp

/-- A matrix whose entries are all `0` has no edge. -/
theorem edge_zero {m : List (List Int)} (hz : ∀ row ∈ m, ∀ e ∈ row, e = 0)
    (a b : Nat) : edge m a b = false := by
  unfold edge
  cases hr : m[a]? with
  | none => rfl
  | some row =>
    cases he : row[b]? with
    | none => simp [he]
    | some e =>
      have h1 : row ∈ m := List.getElem?_mem hr
      have h2 : e ∈ row := List.getElem?_mem he
      simp [he, hz row h1 e h2]

theorem filter_ne_zero_range (V : Nat) :
    (List.range V).filter (fun j => decide (j ≠ 0)) = List.range' 1 (V - 1) := by
  cases V with
  | zero => rfl
  | succ n =>
    rw [List.range_eq_range', List.range'_succ, List.filter_cons]
    simp only [ne_eq, not_true_eq_false, decide_False, Bool.false_eq_true, if_false]
    rw [List.filter_eq_self.mpr]
    · simp
    · intro a ha
      have := (List.mem_range'_1.mp ha).1
      simp; omega

/-! ## The states at the head of the loop -/

/-- Every state at the head of the loop satisfies the invariant. -/
theorem AtHead.inv {m : List (List Int)} {V s : Nat} (hsq : Square m V) (hs : s < V)
    {st : State} (h : AtHead m s st) : Inv m V s st := by
  have hV : m.length = V := hsq.1
  subst hV
  induction h with
  | init => exact Inv.init hs
  | step _ hq hrun ih =>
    obtain ⟨st2, hrun2, hinv2, _⟩ := Inv.step hsq ih hq
    rw [hrun2] at hrun
    cases hrun
    exact hinv2

/-- The state in which the loop exits is a state at the head of the loop. -/
theorem whileLoop_atHead {m : List (List Int)} {s : Nat} :
    ∀ (fuel : Nat) (st st1 : State), AtHead m s st →
      whileLoop m.length fuel st = .ok st1 → AtHead m s st1 := by
  intro fuel
  induction fuel with
  | zero =>
    intro st st1 h hrun
    cases hq : st.q with
    | nil => simp [whileLoop, hq] at hrun; rw [← hrun]; exact h
    | cons node rest => simp [whileLoop, hq] at hrun
  | succ f ih =>
    intro st st1 h hrun
    cases hq : st.q with
    | nil => simp [whileLoop, hq] at hrun; rw [← hrun]; exact h
    | cons node rest =>
      cases hb : whileBody m.length node rest st with
      | error e => simp [whileLoop, hq, hb] at hrun
      | ok st2 =>
        simp only [whileLoop, hq, hb] at hrun
        exact ih st2 st1 (AtHead.step h hq hb) hrun

/-- The state `BFS` returns is a state at the head of the loop. -/
theorem BFS_atHead {m : List (List Int)} {V s : Nat} (hsq : Square m V) (hs : s < V)
    {st : State} (hrun : BFS (s : Int) m = .ok st) : AtHead m s st := by
  have hcond : (0 : Int) ≤ (s : Int) ∧ (s : Int) < ((m.length : Nat) : Int) := by
    rw [hsq.1]
    exact ⟨Int.ofNat_nonneg s, Int.ofNat_lt.mpr hs⟩
  unfold BFS BFSFuel at hrun
  rw [if_pos hcond, Int.toNat_ofNat] at hrun
  exact whileLoop_atHead m.length _ st AtHead.init hrun

/-! ## Marks are never cleared -/

theorem scanBody_mono {node j : Nat} {st st1 : State}
    (h : scanBody node j st = .ok st1) (i : Nat)
    (hi : marked st.visited i = true) : marked st1.visited i = true := by
  unfold scanBody at h
  split at h
  · cases h
  · split at h
    · cases h
    · dsimp only at h
      split at h
      · split at h
        · cases h
        · rename_i b hb
          have hj : j < st.visited.length := (List.getElem?_eq_some.mp hb).1
          split at h
          · cases h
            simp only
            rw [marked_set st.visited j i hj, hi]
            simp
          · cases h
            exact hi
      · cases h
        exact hi

theorem scanLoop_mono {node : Nat} :
    ∀ (k j : Nat) (st st1 : State), scanLoop node k j st = .ok st1 →
      ∀ i, marked st.visited i = true → marked st1.visited i = true := by
  intro k
  induction k with
  | zero =>
    intro j st st1 h i hi
    simp [scanLoop] at h
    rw [← h]; exact hi
  | succ k ih =>
    intro j st st1 h i hi
    cases hb : scanBody node j st with
    | error e => simp [scanLoop, hb] at h
    | ok st2 =>
      simp only [scanLoop, hb] at h
      exact ih (j + 1) st2 st1 h i (scanBody_mono hb i hi)

/-- One iteration of the `while` loop, from any state and on any matrix, leaves
every mark in place. -/
theorem whileBody_mono {n node : Nat} {rest : List Nat} {st st1 : State}
    (h : whileBody n node rest st = .ok st1) (i : Nat)
    (hi : marked st.visited i = true) : marked st1.visited i = true := by
  unfold whileBody at h
  exact scanLoop_mono n 0 _ st1 h i hi

/-! ## No out-of-range access, whatever the fuel -/

/-- From a state that satisfies the invariant the loop either exits or runs
out of fuel; it never stops at an out-of-range access. -/
theorem whileLoop_in_bounds {m : List (List Int)} {V s : Nat} (hsq : Square m V) :
    ∀ (fuel : Nat) (st : State), Inv m V s st →
      (∃ st1, whileLoop V fuel st = .ok st1) ∨
        (∃ e, whileLoop V fuel st = .error ⟨.outOfFuel, e⟩) := by
  intro fuel
  induction fuel with
  | zero =>
    intro st _
    cases hq : st.q with
    | nil => exact Or.inl ⟨st, by simp [whileLoop, hq]⟩
    | cons node rest => exact Or.inr ⟨st.out, by simp [whileLoop, hq]⟩
  | succ f ih =>
    intro st hinv
    cases hq : st.q with
    | nil => exact Or.inl ⟨st, by simp [whileLoop, hq]⟩
    | cons node rest =>
      obtain ⟨st2, hrun2, hinv2, _⟩ := Inv.step hsq hinv hq
      rcases ih st2 hinv2 with ⟨st1, h1⟩ | ⟨e, h1⟩
      · exact Or.inl ⟨st1, by simp only [whileLoop, hq, hrun2]; exact h1⟩
      · exact Or.inr ⟨e, by simp only [whileLoop, hq, hrun2]; exact h1⟩

/-! ## The output depends on the off-diagonal edges only -/

theorem edge_eq_entry (m : List (List Int)) (a b : Nat) :
    edge m a b = decide (entry m a b = some 1) := by
  unfold edge entry
  cases m[a]? with
  | none => simp
  | some row =>
    cases he : row[b]? with
    | none => simp [he]
    | some e => simp [he]

theorem BFS_eq_whileLoop {m : List (List Int)} {V s : Nat} (hsq : Square m V)
    (hs : s < V) : BFS (s : Int) m = whileLoop V V (initState V s m) := by
  have hcond : (0 : Int) ≤ (s : Int) ∧ (s : Int) < ((m.length : Nat) : Int) := by
    rw [hsq.1]
    exact ⟨Int.ofNat_nonneg s, Int.ofNat_lt.mpr hs⟩
  unfold BFS BFSFuel
  rw [if_pos hcond, Int.toNat_ofNat, hsq.1]

/-- The scan of the row of a marked vertex pushes the same vertices on two
matrices with the same off-diagonal edges, from the same marks. -/
theorem fresh_congr {A B : List (List Int)} {V node : Nat} {va vb : List Bool}
    (hoff : ∀ i j, i < V → j < V → i ≠ j → edge A i j = edge B i j)
    (hnode : node < V) (hmk : marked va node = true)
    (hsame : ∀ i, marked va i = marked vb i) :
    fresh A va node 0 V = fresh B vb node 0 V := by
  unfold fresh
  apply List.filter_congr
  intro i hi
  have hiV : i < V := by
    have := (List.mem_range'_1.mp hi).2
    omega
  rw [← hsame i]
  by_cases h : i = node
  · rw [h, hmk]; simp
  · rw [hoff node i hnode hiV (fun e => h e.symm)]

/-- Two runs of the loop on matrices with the same off-diagonal edges, from
states with the same queue, output and marks, emit the same sequence. -/
theorem whileLoop_congr {A B : List (List Int)} {V s : Nat}
    (hA : Square A V) (hB : Square B V)
    (hoff : ∀ i j, i < V → j < V → i ≠ j → edge A i j = edge B i j) :
    ∀ (fuel : Nat) (sa sb : State), Inv A V s sa → Inv B V s sb → SameView sa sb →
      ∀ a b, whileLoop V fuel sa = .ok a → whileLoop V fuel sb = .ok b →
        a.out = b.out := by
  intro fuel
  induction fuel with
  | zero =>
    intro sa sb _ _ hv a b ha hb
    cases hq : sa.q with
    | nil =>
      have hqb : sb.q = [] := by rw [← hv.1]; exact hq
      simp [whileLoop, hq] at ha
      simp [whileLoop, hqb] at hb
      rw [← ha, ← hb]; exact hv.2.1
    | cons node rest => simp [whileLoop, hq] at ha
  | succ f ih =>
    intro sa sb hia hib hv a b ha hb
    cases hq : sa.q with
    | nil =>
      have hqb : sb.q = [] := by rw [← hv.1]; exact hq
      simp [whileLoop, hq] at ha
      simp [whileLoop, hqb] at hb
      rw [← ha, ← hb]; exact hv.2.1
    | cons node rest =>
      have hqb : sb.q = node :: rest := by rw [← hv.1]; exact hq
      obtain ⟨sa2, hra, hia2, houta, hqa2, hma⟩ := Inv.step hA hia hq
      obtain ⟨sb2, hrb, hib2, houtb, hqb2, hmb⟩ := Inv.step hB hib hqb
      have hnodeL : node ∈ sa.seen := by simp [State.seen, hq]
      have hfr : fresh A sa.visited node 0 V = fresh B sb.visited node 0 V :=
        fresh_congr hoff (hia.seen_lt hnodeL) ((hia.mem_iff node).mp hnodeL) hv.2.2
      have hv2 : SameView sa2 sb2 := by
        refine ⟨?_, ?_, ?_⟩
        · rw [hqa2, hqb2, hfr]
        · rw [houta, houtb, hv.2.1]
        · intro i
          rw [hma i, hmb i, hfr, hv.2.2 i]
      simp only [whileLoop, hq, hra] at ha
      simp only [whileLoop, hqb, hrb] at hb
      exact ih sa2 sb2 hia2 hib2 hv2 a b ha hb

/-- On two square matrices with the same off-diagonal edges `BFS` returns the
same sequence. -/
theorem BFS_congr {A B : List (List Int)} {V s : Nat}
    (hA : Square A V) (hB : Square B V) (hs : s < V)
    (hoff : ∀ i j, i < V → j < V → i ≠ j → edge A i j = edge B i j) :
    ∃ a b, BFS (s : Int) A = .ok a ∧ BFS (s : Int) B = .ok b ∧ a.out = b.out := by
  obtain ⟨a, hra, _⟩ := BFS_ok hA hs
  obtain ⟨b, hrb, _⟩ := BFS_ok hB hs
  refine ⟨a, b, hra, hrb, ?_⟩
  rw [BFS_eq_whileLoop hA hs] at hra
  rw [BFS_eq_whileLoop hB hs] at hrb
  have hv : SameView (initState V s A) (initState V s B) := by
    refine ⟨rfl, rfl, ?_⟩
    intro i
    rw [marked_init V s i hs A, marked_init V s i hs B]
  exact whileLoop_congr hA hB hoff V _ _ (Inv.init hs) (Inv.init hs) hv a b hra hrb

/-! ## Walks in a symmetric matrix -/

theorem Walk.lt {m : List (List Int)} {V s v k : Nat} (h : Walk m V s v k) :
    s < V ∧ v < V := by
  induction h with
  | start hs => exact ⟨hs, hs⟩
  | snoc _ hv _ ih => exact ⟨ih.1, hv⟩

/-- A walk extended by an edge at its start. -/
theorem Walk.cons {m : List (List Int)} {V s u v k : Nat} (hs : s < V)
    (he : edge m s u = true) (h : Walk m V u v k) : Walk m V s v (k + 1) := by
  induction h with
  | start hu => exact Walk.snoc (Walk.start hs) hu he
  | snoc _ hv he2 ih => exact Walk.snoc ih hv he2

/-- Two walks one after the other. -/
theorem Walk.trans {m : List (List Int)} {V s u x k j : Nat}
    (h1 : Walk m V s u k) (h2 : Walk m V u x j) : Walk m V s x (k + j) := by
  induction h2 with
  | start _ => exact h1
  | snoc _ hv he ih => exact Walk.snoc ih hv he

/-- In a symmetric matrix a walk can be walked backwards. -/
theorem Walk.symm {m : List (List Int)} {V s v k : Nat}
    (hsym : ∀ i j, i < V → j < V → edge m i j = edge m j i)
    (h : Walk m V s v k) : Walk m V v s k := by
  induction h with
  | start hs => exact Walk.start hs
  | snoc hw hv he ih =>
    rename_i u w k0
    have hu : u < V := hw.lt.2
    exact Walk.cons hv (by rw [hsym w u hv hu]; exact he) ih

/-- The vertices `BFS` emits are the reachable ones. -/
theorem BFS_mem_iff {m : List (List Int)} {V s : Nat} (hsq : Square m V) (hs : s < V) :
    ∃ st, BFS (s : Int) m = .ok st ∧ ∀ v, v ∈ st.out ↔ Reachable m V s v := by
  obtain ⟨st, hrun, _, hinv, _, hfin⟩ := BFS_ok hsq hs
  refine ⟨st, hrun, ?_⟩
  intro v
  constructor
  · intro hv; exact hinv.reach v (hfin ▸ hv)
  · rintro ⟨k, hk⟩; exact hinv.walk_mem hfin hk

/-! ## The loading loop -/

theorem entry_set {m : List (List Int)} {a b : Nat} {row : List Int}
    (hrow : m[a]? = some row) (hb : b < row.length) (i j : Nat) :
    entry (m.set a (row.set b 1)) i j =
      if i = a ∧ j = b then some 1 else entry m i j := by
  have ha : a < m.length := (List.getElem?_eq_some.mp hrow).1
  unfold entry
  by_cases hi : i = a
  · subst hi
    rw [List.getElem?_set_self ha, hrow]
    simp only [true_and]
    by_cases hj : j = b
    · subst hj
      rw [List.getElem?_set_self hb, if_pos rfl]
    · rw [List.getElem?_set_ne (fun e => hj e.symm), if_neg hj]
  · rw [List.getElem?_set_ne (fun e => hi e.symm)]
    simp [hi]

theorem square_set {m : List (List Int)} {V a b : Nat} {row : List Int}
    (hsq : Square m V) (hrow : m[a]? = some row) :
    Square (m.set a (row.set b 1)) V := by
  refine ⟨by rw [List.length_set]; exact hsq.1, ?_⟩
  intro r hr
  rcases List.mem_or_eq_of_mem_set hr with h | h
  · exact hsq.2 r h
  · rw [h, List.length_set]
    exact hsq.2 row (List.getElem?_mem hrow)

/-- On a square matrix the assignment `matrix[u][v] = 1` with `u` and `v` in
range does not fault and changes that entry only. -/
theorem setOne_ok {m : List (List Int)} {V : Nat} {u v : Int} (hsq : Square m V)
    (hu : 0 ≤ u ∧ u < (V : Int)) (hv : 0 ≤ v ∧ v < (V : Int)) :
    ∃ m1, setOne m u v = .ok m1 ∧ Square m1 V ∧
      ∀ i j, entry m1 i j =
        if i = u.toNat ∧ j = v.toNat then some 1 else entry m i j := by
  have huV : u.toNat < V := by omega
  have hvV : v.toNat < V := by omega
  obtain ⟨row, hrow, hlen⟩ := edge_row hsq huV
  have hc1 : 0 ≤ u ∧ u < ((m.length : Nat) : Int) := by rw [hsq.1]; exact hu
  have hc2 : 0 ≤ v ∧ v < ((row.length : Nat) : Int) := by rw [hlen]; exact hv
  refine ⟨m.set u.toNat (row.set v.toNat 1), ?_, square_set hsq hrow, ?_⟩
  · unfold setOne
    rw [if_pos hc1]
    simp only [hrow]
    rw [if_pos hc2]
  · intro i j
    exact entry_set hrow (by rw [hlen]; exact hvV) i j

/-- The loading loop on a square matrix and pairs in range does not fault; an
entry is `1` afterwards if its position or the mirrored position is one of the
pairs, and is what it was otherwise. -/
theorem loadLoop_ok {V : Nat} :
    ∀ (pairs : List (Int × Int)) (m0 : List (List Int)), Square m0 V →
      (∀ p ∈ pairs, (0 ≤ p.1 ∧ p.1 < (V : Int)) ∧ (0 ≤ p.2 ∧ p.2 < (V : Int))) →
      ∃ mat, loadLoop pairs m0 = .ok mat ∧ Square mat V ∧
        ∀ i j : Nat,
          ((∃ p ∈ pairs, p = ((i : Int), (j : Int)) ∨ p = ((j : Int), (i : Int))) →
            entry mat i j = some 1) ∧
          ((¬ ∃ p ∈ pairs, p = ((i : Int), (j : Int)) ∨ p = ((j : Int), (i : Int))) →
            entry mat i j = entry m0 i j) := by
  intro pairs
  induction pairs with
  | nil =>
    intro m0 hsq _
    refine ⟨m0, rfl, hsq, ?_⟩
    intro i j
    exact ⟨fun ⟨p, hp, _⟩ => by simp at hp, fun _ => rfl⟩
  | cons p ps ih =>
    intro m0 hsq hp
    obtain ⟨u, v⟩ := p
    have huv := hp (u, v) (List.mem_cons_self _ _)
    obtain ⟨m1, hr1, hsq1, he1⟩ := setOne_ok hsq huv.1 huv.2
    obtain ⟨m2, hr2, hsq2, he2⟩ := setOne_ok hsq1 huv.2 huv.1
    obtain ⟨mat, hr, hsqm, hem⟩ := ih m2 hsq2
      (fun q hq => hp q (List.mem_cons_of_mem _ hq))
    refine ⟨mat, ?_, hsqm, ?_⟩
    · simp only [loadLoop, hr1, hr2]; exact hr
    · intro i j
      have hhead : ((u, v) = ((i : Int), (j : Int)) ∨ (u, v) = ((j : Int), (i : Int))) ↔
          ((i = u.toNat ∧ j = v.toNat) ∨ (i = v.toNat ∧ j = u.toNat)) := by
        simp only [Prod.mk.injEq]
        omega
      by_cases hps : ∃ q ∈ ps, q = ((i : Int), (j : Int)) ∨ q = ((j : Int), (i : Int))
      · refine ⟨fun _ => (hem i j).1 hps, fun hn => ?_⟩
        obtain ⟨q, hq, hq2⟩ := hps
        exact absurd ⟨q, List.mem_cons_of_mem _ hq, hq2⟩ hn
      · have h2 := (hem i j).2 hps
        constructor
        · rintro ⟨q, hq, hq2⟩
          rcases List.mem_cons.mp hq with h | h
          · subst h
            rw [h2, he2 i j, he1 i j]
            rcases hhead.mp hq2 with h3 | h3
            · by_cases h4 : i = v.toNat ∧ j = u.toNat
              · rw [if_pos h4]
              · rw [if_neg h4, if_pos h3]
            · rw [if_pos h3]
          · exact absurd ⟨q, h, hq2⟩ hps
        · intro hn
          have hnh : ¬ ((u, v) = ((i : Int), (j : Int)) ∨ (u, v) = ((j : Int), (i : Int))) :=
            fun h => hn ⟨(u, v), List.mem_cons_self _ _, h⟩
          rw [hhead] at hnh
          rw [h2, he2 i j, he1 i j]
          rw [if_neg (fun h => hnh (Or.inr h)), if_neg (fun h => hnh (Or.inl h))]

theorem square_replicate (V : Nat) :
    Square (List.replicate V (List.replicate V (0 : Int))) V := by
  refine ⟨by simp, ?_⟩
  intro r hr
  rw [(List.mem_replicate.mp hr).2]
  simp

theorem entry_replicate {V i j : Nat} (hi : i < V) (hj : j < V) :
    entry (List.replicate V (List.replicate V (0 : Int))) i j = some 0 := by
  unfold entry
  simp [List.getElem?_replicate, hi, hj]

end Lab

namespace Lab

/-! ## The claims -/

/-- Claim C1: on a square `V × V` matrix and a start `s < V`, `BFS` returns and
the vertices it emits are exactly the vertices reachable from `s`, that is the
end points of the sequences `s = v0, ..., vk = v` of indices in `[0, V)` with
`matrix[v_i][v_{i+1}] == 1`; a vertex that is not reachable is not emitted. -/
theorem BFS_emits_exactly_reachable (m : List (List Int)) (V s : Nat)
    (hsq : Square m V) (hs : s < V) :
    ∃ st, BFS (s : Int) m = .ok st ∧
      (∀ v, v ∈ st.out ↔ Reachable m V s v) ∧
      (∀ v, v ∈ st.out ↔ ∃ p, IsPath m V s v p) ∧
      (∀ v, ¬ Reachable m V s v → v ∉ st.out) := by
  obtain ⟨st, hrun, _, hinv, _, hfin⟩ := BFS_ok hsq hs
  have hiff : ∀ v, v ∈ st.out ↔ Reachable m V s v := by
    intro v
    constructor
    · intro hv; exact hinv.reach v (hfin ▸ hv)
    · rintro ⟨k, hk⟩; exact hinv.walk_mem hfin hk
  exact ⟨st, hrun, hiff, fun v => (hiff v).trans reachable_iff_path,
    fun v hn hv => hn ((hiff v).mp hv)⟩

/-- Witness of claim C1: `V = 3` with only the edge `0 - 1` and `s = 0`; the
output is `[0, 1]`. -/
theorem BFS_emits_exactly_reachable_witness :
    Square m3 3 ∧ 0 < 3 ∧ output (BFS ((0 : Nat) : Int) m3) = some [0, 1] ∧
      ∃ st, BFS ((0 : Nat) : Int) m3 = .ok st ∧
        (∀ v, v ∈ st.out ↔ Reachable m3 3 0 v) ∧
        (∀ v, v ∈ st.out ↔ ∃ p, IsPath m3 3 0 v p) ∧
        (∀ v, ¬ Reachable m3 3 0 v → v ∉ st.out) :=
  ⟨by decide, by decide, by decide,
    BFS_emits_exactly_reachable m3 3 0 (by decide) (by decide)⟩

/-- Claim C2: on a square `V × V` matrix and a start `s < V`, `BFS` returns and
no vertex occurs more than once in the sequence it emits. -/
theorem BFS_output_nodup (m : List (List Int)) (V s : Nat)
    (hsq : Square m V) (hs : s < V) :
    ∃ st, BFS (s : Int) m = .ok st ∧ st.out.Nodup := by
  obtain ⟨st, hrun, _, hinv, _, hfin⟩ := BFS_ok hsq hs
  exact ⟨st, hrun, hfin ▸ hinv.nodup⟩

/-- Witness of claim C2 on the three-vertex matrix. -/
theorem BFS_output_nodup_witness :
    Square m3 3 ∧ 0 < 3 ∧ ∃ st, BFS ((0 : Nat) : Int) m3 = .ok st ∧ st.out.Nodup :=
  ⟨by decide, by decide, BFS_output_nodup m3 3 0 (by decide) (by decide)⟩

/-- Claim C3: on a square `V × V` matrix and a start `s < V`, `BFS` returns and
whenever `u` is emitted before `v`, both have a shortest-hop distance from `s`
and the distance of `u` is at most the distance of `v`. -/
theorem BFS_output_distance_order (m : List (List Int)) (V s : Nat)
    (hsq : Square m V) (hs : s < V) :
    ∃ st, BFS (s : Int) m = .ok st ∧
      ∀ u v, u ∈ st.out → v ∈ st.out → st.out.indexOf u < st.out.indexOf v →
        ∃ du dv, IsDist m V s u du ∧ IsDist m V s v dv ∧ du ≤ dv := by
  obtain ⟨st, hrun, _, hinv, _, hfin⟩ := BFS_ok hsq hs
  refine ⟨st, hrun, ?_⟩
  intro u v hu hv hlt
  obtain ⟨du, hdu⟩ := exists_isDist (hinv.reach u (hfin ▸ hu))
  obtain ⟨dv, hdv⟩ := exists_isDist (hinv.reach v (hfin ▸ hv))
  refine ⟨du, dv, hdu, hdv, ?_⟩
  obtain ⟨k1, hk1, hwalk⟩ :=
    hinv.layer hfin _ u hu rfl v hv (Nat.le_of_lt hlt) dv hdv.1
  exact Nat.le_trans (hdu.2 k1 hwalk) hk1

/-- Witness of claim C3 on the three-vertex matrix. -/
theorem BFS_output_distance_order_witness :
    Square m3 3 ∧ 0 < 3 ∧ ∃ st, BFS ((0 : Nat) : Int) m3 = .ok st ∧
      ∀ u v, u ∈ st.out → v ∈ st.out → st.out.indexOf u < st.out.indexOf v →
        ∃ du dv, IsDist m3 3 0 u du ∧ IsDist m3 3 0 v dv ∧ du ≤ dv :=
  ⟨by decide, by decide, BFS_output_distance_order m3 3 0 (by decide) (by decide)⟩

/-- Claim C4: on a square `V × V` matrix and a start `s < V`, `BFS` returns and
any two distinct emitted vertices `u`, `v` other than `s` have parents (the
earliest-emitted vertex with an edge to them), and `u` is emitted before `v`
exactly when the parent of `u` is emitted before the parent of `v`, or the
parents are equal and `u < v`. -/
theorem BFS_output_scan_order (m : List (List Int)) (V s : Nat)
    (hsq : Square m V) (hs : s < V) :
    ∃ st, BFS (s : Int) m = .ok st ∧
      ∀ u v, u ∈ st.out → v ∈ st.out → u ≠ s → v ≠ s → u ≠ v →
        ∃ pu pv, parent m st.out u = some pu ∧ parent m st.out v = some pv ∧
          (st.out.indexOf u < st.out.indexOf v ↔
            st.out.indexOf pu < st.out.indexOf pv ∨ (pu = pv ∧ u < v)) := by
  obtain ⟨st, hrun, _, hinv, _, hfin⟩ := BFS_ok hsq hs
  refine ⟨st, hrun, ?_⟩
  intro u v hu hv hus hvs huv
  obtain ⟨pu, hpu, _⟩ := hinv.par u (hfin ▸ hu) hus
  obtain ⟨pv, hpv, _⟩ := hinv.par v (hfin ▸ hv) hvs
  have hord := hinv.ord u (hfin ▸ hu) v (hfin ▸ hv) hus hvs huv pu pv hpu hpv
  rw [hfin] at hord
  exact ⟨pu, pv, hpu, hpv, hord⟩

/-- Witness of claim C4 on the complete graph on four vertices, from `s = 2`. -/
theorem BFS_output_scan_order_witness :
    Square k4 4 ∧ 2 < 4 ∧ output (BFS ((2 : Nat) : Int) k4) = some [2, 0, 1, 3] ∧
      ∃ st, BFS ((2 : Nat) : Int) k4 = .ok st ∧
      ∀ u v, u ∈ st.out → v ∈ st.out → u ≠ 2 → v ≠ 2 → u ≠ v →
        ∃ pu pv, parent k4 st.out u = some pu ∧ parent k4 st.out v = some pv ∧
          (st.out.indexOf u < st.out.indexOf v ↔
            st.out.indexOf pu < st.out.indexOf pv ∨ (pu = pv ∧ u < v)) :=
  ⟨by decide, by decide, by decide,
    BFS_output_scan_order k4 4 2 (by decide) (by decide)⟩

/-- Claim C5, as the code behaves: for a start index outside `[0, V)` the
function has no range check and no `InvalidArgument` condition; with any fuel,
its first statement `visited[start] = true` indexes the `V`-element vector out
of range, before the queue is touched, the matrix is read or a vertex is
emitted. -/
theorem BFS_start_out_of_range (m : List (List Int)) (V : Nat) (s : Int)
    (hsq : Square m V) (hs : s < 0 ∨ (V : Int) ≤ s) :
    BFS s m = .error ⟨.outOfBounds (.visitedStart s V), []⟩ ∧
      ∀ fuel, BFSFuel fuel s m = .error ⟨.outOfBounds (.visitedStart s V), []⟩ := by
  have hcond : ¬ ((0 : Int) ≤ s ∧ s < ((m.length : Nat) : Int)) := by
    rw [hsq.1]; omega
  have hfuel : ∀ fuel,
      BFSFuel fuel s m = .error ⟨.outOfBounds (.visitedStart s V), []⟩ := by
    intro fuel
    unfold BFSFuel
    rw [if_neg hcond, hsq.1]
  exact ⟨hfuel _, hfuel⟩

/-- Witness of the amended claim C5: `V = 3` and `start = 3`. -/
theorem BFS_start_out_of_range_witness :
    Square m3 3 ∧ ((3 : Int) < 0 ∨ ((3 : Nat) : Int) ≤ 3) ∧
      BFS 3 m3 = .error ⟨.outOfBounds (.visitedStart 3 3), []⟩ ∧
      ∀ fuel, BFSFuel fuel 3 m3 = .error ⟨.outOfBounds (.visitedStart 3 3), []⟩ :=
  ⟨by decide, by decide, BFS_start_out_of_range m3 3 3 (by decide) (by decide)⟩

/-- Claim C5, counterexample: on the `3 × 3` matrix `m3` the starts `3` and `-1`
are outside `[0, 3)`, and the run stops at the out-of-range access
`visited[start]` instead of making no out-of-range access. -/
theorem BFS_start_out_of_range_counterexample :
    Square m3 3 ∧ ¬ ((0 : Int) ≤ 3 ∧ (3 : Int) < 3) ∧ ¬ ((0 : Int) ≤ -1 ∧ (-1 : Int) < 3) ∧
      BFS 3 m3 = .error ⟨.outOfBounds (.visitedStart 3 3), []⟩ ∧
      BFS (-1) m3 = .error ⟨.outOfBounds (.visitedStart (-1) 3), []⟩ :=
  ⟨by decide, by decide, by decide, rfl, rfl⟩

/-- Claim C6: on a square `V × V` matrix and a start `s < V` the loop of `BFS`
exits, with the same final state for every fuel of at least `V`; the queue is
then empty, no vertex was pushed twice, every pushed vertex was dequeued and
emitted, at most `V` vertices were dequeued and at most `V · V` edge checks
were made. -/
theorem BFS_terminates_within_bounds (m : List (List Int)) (V s : Nat)
    (hsq : Square m V) (hs : s < V) :
    ∃ st, BFS (s : Int) m = .ok st ∧
      (∀ fuel, V ≤ fuel → BFSFuel fuel (s : Int) m = .ok st) ∧
      st.q = [] ∧ st.pushes.Nodup ∧ st.pushes = st.out ∧
      st.out.length ≤ V ∧ st.checks = V * st.out.length ∧ st.checks ≤ V * V := by
  obtain ⟨st, hrun, hfuel, hinv, hq, hfin⟩ := BFS_ok hsq hs
  have hlen : st.out.length ≤ V := hfin ▸ hinv.seen_length
  refine ⟨st, hrun, hfuel, hq, ?_, ?_, hlen, hinv.checks_eq, ?_⟩
  · rw [hinv.pushes_eq]; exact hinv.nodup
  · rw [hinv.pushes_eq, hfin]
  · rw [hinv.checks_eq]; exact Nat.mul_le_mul_left V hlen

/-- Witness of claim C6 on the complete graph on four vertices. -/
theorem BFS_terminates_within_bounds_witness :
    Square k4 4 ∧ 1 < 4 ∧ ∃ st, BFS ((1 : Nat) : Int) k4 = .ok st ∧
      (∀ fuel, 4 ≤ fuel → BFSFuel fuel ((1 : Nat) : Int) k4 = .ok st) ∧
      st.q = [] ∧ st.pushes.Nodup ∧ st.pushes = st.out ∧
      st.out.length ≤ 4 ∧ st.checks = 4 * st.out.length ∧ st.checks ≤ 4 * 4 :=
  ⟨by decide, by decide, BFS_terminates_within_bounds k4 4 1 (by decide) (by decide)⟩

/-- Claim C7: on a `V × V` matrix with `matrix[i][j] == 1` for all `i ≠ j` and a
start `s < V`, `BFS` emits `s` and then all other vertices of `[0, V)` in
ascending order; for `s = 0` the output is `[0, 1, ..., V-1]`. -/
theorem BFS_complete_graph (m : List (List Int)) (V s : Nat)
    (hsq : Square m V) (hs : s < V)
    (hfull : ∀ i, i < V → ∀ j, j < V → i ≠ j → edge m i j = true) :
    ∃ st, BFS (s : Int) m = .ok st ∧
      st.out = s :: (List.range V).filter (fun j => decide (j ≠ s)) ∧
      (s = 0 → st.out = List.range V) := by
  obtain ⟨f, st2, hf, hrun, hinv2, hout2, hq2, hmk⟩ := BFS_first_step hsq hs
  have hq2b : st2.q = (List.range V).filter (fun j => decide (j ≠ s)) := by
    rw [hq2]
    apply List.filter_congr
    intro i hi
    have hiV : i < V := List.mem_range.mp hi
    by_cases h : i = s
    · simp [h]
    · simp [h, hfull s hs i hiV (fun e => h e.symm)]
  have hall : ∀ i, i < V → marked st2.visited i = true := by
    intro i hi
    rw [hmk i]
    by_cases h : i = s
    · simp [h]
    · simp [h, hi, hfull s hs i hi (fun e => h e.symm)]
  obtain ⟨st, hst, hout⟩ := whileLoop_drain hsq f st2 hinv2 hall
    (by rw [hout2]; simp; omega)
  have hfinal : st.out = s :: (List.range V).filter (fun j => decide (j ≠ s)) := by
    rw [hout, hout2, hq2b]; rfl
  refine ⟨st, by rw [hrun, hst], hfinal, ?_⟩
  intro h0
  subst h0
  rw [hfinal, filter_ne_zero_range, List.range_eq_range']
  conv_rhs => rw [hf]
  rw [List.range'_succ]
  simp [hf]

/-- Witness of claim C7: `V = 4`, `s = 0` gives `[0, 1, 2, 3]`. -/
theorem BFS_complete_graph_witness :
    Square k4 4 ∧ 0 < 4 ∧ (∀ i, i < 4 → ∀ j, j < 4 → i ≠ j → edge k4 i j = true) ∧
      output (BFS ((0 : Nat) : Int) k4) = some [0, 1, 2, 3] ∧
      ∃ st, BFS ((0 : Nat) : Int) k4 = .ok st ∧
        st.out = 0 :: (List.range 4).filter (fun j => decide (j ≠ 0)) ∧
        (0 = 0 → st.out = List.range 4) :=
  ⟨by decide, by decide, by decide, by decide,
    BFS_complete_graph k4 4 0 (by decide) (by decide) (by decide)⟩

/-- Claim C8: on a `V × V` matrix whose entries are all `0` and a start `s < V`,
`BFS` emits exactly `[s]`. -/
theorem BFS_no_edges (m : List (List Int)) (V s : Nat)
    (hsq : Square m V) (hs : s < V) (hz : ∀ row ∈ m, ∀ e ∈ row, e = 0) :
    ∃ st, BFS (s : Int) m = .ok st ∧ st.out = [s] := by
  obtain ⟨f, st2, _, hrun, _, hout2, hq2, _⟩ := BFS_first_step hsq hs
  have hq : st2.q = [] := by
    rw [hq2]
    apply List.filter_eq_nil_iff.mpr
    intro i _
    simp [edge_zero hz s i]
  exact ⟨st2, by rw [hrun, whileLoop_nil V f st2 hq], hout2⟩

/-- Witness of claim C8: `V = 1`, no edge, `s = 0` gives `[0]`. -/
theorem BFS_no_edges_witness :
    Square m1 1 ∧ 0 < 1 ∧ (∀ row ∈ m1, ∀ e ∈ row, e = 0) ∧
      output (BFS ((0 : Nat) : Int) m1) = some [0] ∧
      ∃ st, BFS ((0 : Nat) : Int) m1 = .ok st ∧ st.out = [0] :=
  ⟨by decide, by decide, by decide, by decide,
    BFS_no_edges m1 1 0 (by decide) (by decide) (by decide)⟩

/-- Claim C9: on a square `V × V` matrix and a start `s < V`, `BFS` returns and
the matrix it was handed by reference is the one it was given, entry for
entry. -/
theorem BFS_matrix_unchanged (m : List (List Int)) (V s : Nat)
    (hsq : Square m V) (hs : s < V) :
    ∃ st, BFS (s : Int) m = .ok st ∧ st.matrix = m := by
  obtain ⟨st, hrun, _, hinv, _, _⟩ := BFS_ok hsq hs
  exact ⟨st, hrun, hinv.matrix_eq⟩

/-- Witness of claim C9 on the three-vertex matrix. -/
theorem BFS_matrix_unchanged_witness :
    Square m3 3 ∧ 1 < 3 ∧ ∃ st, BFS ((1 : Nat) : Int) m3 = .ok st ∧ st.matrix = m3 :=
  ⟨by decide, by decide, BFS_matrix_unchanged m3 3 1 (by decide) (by decide)⟩

/-- Claim C10: on a square `V × V` matrix and a start `s < V`, a run of `BFS`
followed by a second run on the matrix the first run left behind emits the
same sequence twice. -/
theorem BFS_twice_same_output (m : List (List Int)) (V s : Nat)
    (hsq : Square m V) (hs : s < V) :
    ∃ st1 st2, BFS (s : Int) m = .ok st1 ∧ BFS (s : Int) st1.matrix = .ok st2 ∧
      st2.out = st1.out := by
  obtain ⟨st, hrun, _, hinv, _, _⟩ := BFS_ok hsq hs
  refine ⟨st, st, hrun, ?_, rfl⟩
  rw [hinv.matrix_eq]; exact hrun

/-- Witness of claim C10 on the three-vertex matrix. -/
theorem BFS_twice_same_output_witness :
    Square m3 3 ∧ 0 < 3 ∧ ∃ st1 st2, BFS ((0 : Nat) : Int) m3 = .ok st1 ∧
      BFS ((0 : Nat) : Int) st1.matrix = .ok st2 ∧ st2.out = st1.out :=
  ⟨by decide, by decide, BFS_twice_same_output m3 3 0 (by decide) (by decide)⟩

/-- Claim C11: for every `V` and every list of pairs with all endpoints in
`[0, V)`, the loading loop of `main` does not fault and builds a `V × V` matrix
with entries in `{0, 1}` in which `matrix[i][j]` is `1` exactly when `(i, j)` or
`(j, i)` is one of the pairs; the matrix is symmetric. -/
theorem loadMatrix_symmetric (V : Nat) (pairs : List (Int × Int))
    (hp : ∀ p ∈ pairs, (0 ≤ p.1 ∧ p.1 < (V : Int)) ∧ (0 ≤ p.2 ∧ p.2 < (V : Int))) :
    ∃ mat, loadMatrix V pairs = .ok mat ∧ Square mat V ∧
      ∀ i j, i < V → j < V →
        (entry mat i j = some 0 ∨ entry mat i j = some 1) ∧
        (entry mat i j = some 1 ↔
          ∃ p ∈ pairs, p = ((i : Int), (j : Int)) ∨ p = ((j : Int), (i : Int))) ∧
        entry mat i j = entry mat j i := by
  obtain ⟨mat, hrun, hsq, hent⟩ := loadLoop_ok pairs _ (square_replicate V) hp
  refine ⟨mat, hrun, hsq, ?_⟩
  intro i j hi hj
  by_cases hit : ∃ p ∈ pairs, p = ((i : Int), (j : Int)) ∨ p = ((j : Int), (i : Int))
  · have h1 := (hent i j).1 hit
    have hit2 : ∃ p ∈ pairs, p = ((j : Int), (i : Int)) ∨ p = ((i : Int), (j : Int)) := by
      obtain ⟨p, hp1, hp2⟩ := hit
      exact ⟨p, hp1, hp2.symm⟩
    have h2 := (hent j i).1 hit2
    exact ⟨Or.inr h1, ⟨fun _ => hit, fun _ => h1⟩, by rw [h1, h2]⟩
  · have h1 := (hent i j).2 hit
    have hit2 : ¬ ∃ p ∈ pairs, p = ((j : Int), (i : Int)) ∨ p = ((i : Int), (j : Int)) := by
      rintro ⟨p, hp1, hp2⟩
      exact hit ⟨p, hp1, hp2.symm⟩
    have h2 := (hent j i).2 hit2
    rw [entry_replicate hi hj] at h1
    rw [entry_replicate hj hi] at h2
    refine ⟨Or.inl h1, ⟨fun h => ?_, fun h => absurd h hit⟩, by rw [h1, h2]⟩
    rw [h1] at h
    cases h

/-- Witness of claim C11: `V = 3` and the single pair `(0, 1)` give `m3`. -/
theorem loadMatrix_symmetric_witness :
    (∀ p ∈ [((0 : Int), (1 : Int))],
        (0 ≤ p.1 ∧ p.1 < ((3 : Nat) : Int)) ∧ (0 ≤ p.2 ∧ p.2 < ((3 : Nat) : Int))) ∧
      loadMatrix 3 [(0, 1)] = .ok m3 ∧
      ∃ mat, loadMatrix 3 [(0, 1)] = .ok mat ∧ Square mat 3 ∧
        ∀ i j, i < 3 → j < 3 →
          (entry mat i j = some 0 ∨ entry mat i j = some 1) ∧
          (entry mat i j = some 1 ↔
            ∃ p ∈ [((0 : Int), (1 : Int))],
              p = ((i : Int), (j : Int)) ∨ p = ((j : Int), (i : Int))) ∧
          entry mat i j = entry mat j i :=
  ⟨by decide, rfl, loadMatrix_symmetric 3 [(0, 1)] (by decide)⟩

/-- Claim C12: the loop starts with exactly `s` marked; from every state at the
head of the loop with a non-empty queue one iteration returns and leaves every
mark in place; and one iteration from any state whatever, on any matrix, never
clears a mark. -/
theorem visited_grows (m : List (List Int)) (V s : Nat)
    (hsq : Square m V) (hs : s < V) :
    (∀ i, marked (initState V s m).visited i = true ↔ i = s) ∧
      (∀ st, AtHead m s st → ∀ node rest, st.q = node :: rest →
        ∃ st1, whileBody V node rest st = .ok st1 ∧
          ∀ i, marked st.visited i = true → marked st1.visited i = true) ∧
      (∀ (n node : Nat) (rest : List Nat) (st st1 : State),
        whileBody n node rest st = .ok st1 →
          ∀ i, marked st.visited i = true → marked st1.visited i = true) := by
  refine ⟨?_, ?_, ?_⟩
  · intro i
    rw [marked_init V s i hs m]
    simp
  · intro st hst node rest hq
    obtain ⟨st1, hrun, _⟩ := Inv.step hsq (hst.inv hsq hs) hq
    exact ⟨st1, hrun, fun i hi => whileBody_mono hrun i hi⟩
  · intro n node rest st st1 hrun i hi
    exact whileBody_mono hrun i hi

/-- Witness of claim C12 on the three-vertex matrix. -/
theorem visited_grows_witness :
    Square m3 3 ∧ 0 < 3 ∧
      (∀ i, marked (initState 3 0 m3).visited i = true ↔ i = 0) ∧
      (∀ st, AtHead m3 0 st → ∀ node rest, st.q = node :: rest →
        ∃ st1, whileBody 3 node rest st = .ok st1 ∧
          ∀ i, marked st.visited i = true → marked st1.visited i = true) ∧
      (∀ (n node : Nat) (rest : List Nat) (st st1 : State),
        whileBody n node rest st = .ok st1 →
          ∀ i, marked st.visited i = true → marked st1.visited i = true) :=
  ⟨by decide, by decide, visited_grows m3 3 0 (by decide) (by decide)⟩

/-- Claim C13: on a square `V × V` matrix and a start `s < V`, `BFS` returns and
its output is not empty and begins with `s`. -/
theorem BFS_output_starts_with_s (m : List (List Int)) (V s : Nat)
    (hsq : Square m V) (hs : s < V) :
    ∃ st, BFS (s : Int) m = .ok st ∧ st.out ≠ [] ∧ st.out.head? = some s := by
  obtain ⟨st, hrun, _, hinv, _, hfin⟩ := BFS_ok hsq hs
  obtain ⟨t, ht⟩ := hinv.head
  rw [hfin] at ht
  exact ⟨st, hrun, by rw [ht]; simp, by rw [ht]; rfl⟩

/-- Witness of claim C13 on the complete graph on four vertices, `s = 2`. -/
theorem BFS_output_starts_with_s_witness :
    Square k4 4 ∧ 2 < 4 ∧
      ∃ st, BFS ((2 : Nat) : Int) k4 = .ok st ∧ st.out ≠ [] ∧ st.out.head? = some 2 :=
  ⟨by decide, by decide, BFS_output_starts_with_s k4 4 2 (by decide) (by decide)⟩

/-- Claim C14: on a square `V × V` matrix and a start `s < V`, `BFS` returns;
every vertex it pushed or emitted is below `V`; at every state at the head of
the loop the queued, emitted and pushed vertices are below `V`, `visited` has
`V` entries and the matrix is the square one; and with no amount of fuel does
the run stop at an out-of-range access. -/
theorem BFS_in_bounds (m : List (List Int)) (V s : Nat)
    (hsq : Square m V) (hs : s < V) :
    ∃ st, BFS (s : Int) m = .ok st ∧
      (∀ x ∈ st.pushes, x < V) ∧ (∀ x ∈ st.out, x < V) ∧
      (∀ st1, AtHead m s st1 →
        (∀ x ∈ st1.q, x < V) ∧ (∀ x ∈ st1.out, x < V) ∧ (∀ x ∈ st1.pushes, x < V) ∧
          st1.visited.length = V ∧ st1.matrix = m) ∧
      (∀ fuel a e, BFSFuel fuel (s : Int) m ≠ .error ⟨.outOfBounds a, e⟩) := by
  obtain ⟨st, hrun, _, hinv, _, hfin⟩ := BFS_ok hsq hs
  refine ⟨st, hrun, ?_, ?_, ?_, ?_⟩
  · intro x hx
    rw [hinv.pushes_eq] at hx
    exact hinv.seen_lt hx
  · intro x hx
    exact hinv.seen_lt (hfin ▸ hx)
  · intro st1 h1
    have hi := h1.inv hsq hs
    refine ⟨?_, ?_, ?_, hi.vis_len, hi.matrix_eq⟩
    · intro x hx
      exact hi.seen_lt (List.mem_append_right _ hx)
    · intro x hx
      exact hi.seen_lt (List.mem_append_left _ hx)
    · intro x hx
      rw [hi.pushes_eq] at hx
      exact hi.seen_lt hx
  · intro fuel a e hbad
    have hcond : (0 : Int) ≤ (s : Int) ∧ (s : Int) < ((m.length : Nat) : Int) := by
      rw [hsq.1]
      exact ⟨Int.ofNat_nonneg s, Int.ofNat_lt.mpr hs⟩
    unfold BFSFuel at hbad
    rw [if_pos hcond, Int.toNat_ofNat, hsq.1] at hbad
    rcases whileLoop_in_bounds hsq fuel _ (Inv.init hs) with ⟨st1, h1⟩ | ⟨e1, h1⟩
    · rw [h1] at hbad
      cases hbad
    · rw [h1] at hbad
      cases hbad

/-- Witness of claim C14 on the three-vertex matrix. -/
theorem BFS_in_bounds_witness :
    Square m3 3 ∧ 1 < 3 ∧
      ∃ st, BFS ((1 : Nat) : Int) m3 = .ok st ∧
        (∀ x ∈ st.pushes, x < 3) ∧ (∀ x ∈ st.out, x < 3) ∧
        (∀ st1, AtHead m3 1 st1 →
          (∀ x ∈ st1.q, x < 3) ∧ (∀ x ∈ st1.out, x < 3) ∧ (∀ x ∈ st1.pushes, x < 3) ∧
            st1.visited.length = 3 ∧ st1.matrix = m3) ∧
        (∀ fuel a e, BFSFuel fuel ((1 : Nat) : Int) m3 ≠ .error ⟨.outOfBounds a, e⟩) :=
  ⟨by decide, by decide, BFS_in_bounds m3 3 1 (by decide) (by decide)⟩

/-- Claim C15: on a square `V × V` matrix and a start `s < V`, at every state at
the head of the loop the emitted vertices followed by the queue have no
duplicates and are exactly the marked vertices; `BFS` returns in such a state
with an empty queue, where the marked vertices are exactly the emitted ones. -/
theorem seen_nodup_eq_marked (m : List (List Int)) (V s : Nat)
    (hsq : Square m V) (hs : s < V) :
    (∀ st, AtHead m s st →
      (st.out ++ st.q).Nodup ∧ ∀ v, v ∈ st.out ++ st.q ↔ marked st.visited v = true) ∧
      ∃ st, BFS (s : Int) m = .ok st ∧ AtHead m s st ∧ st.q = [] ∧
        ∀ v, marked st.visited v = true ↔ v ∈ st.out := by
  constructor
  · intro st hst
    have hi := hst.inv hsq hs
    exact ⟨hi.nodup, hi.mem_iff⟩
  · obtain ⟨st, hrun, _, hinv, hq, hfin⟩ := BFS_ok hsq hs
    refine ⟨st, hrun, BFS_atHead hsq hs hrun, hq, ?_⟩
    intro v
    rw [← hfin]
    exact (hinv.mem_iff v).symm

/-- Witness of claim C15 on the three-vertex matrix. -/
theorem seen_nodup_eq_marked_witness :
    Square m3 3 ∧ 0 < 3 ∧
      (∀ st, AtHead m3 0 st →
        (st.out ++ st.q).Nodup ∧
          ∀ v, v ∈ st.out ++ st.q ↔ marked st.visited v = true) ∧
      ∃ st, BFS ((0 : Nat) : Int) m3 = .ok st ∧ AtHead m3 0 st ∧ st.q = [] ∧
        ∀ v, marked st.visited v = true ↔ v ∈ st.out :=
  ⟨by decide, by decide, seen_nodup_eq_marked m3 3 0 (by decide) (by decide)⟩

/-- Claim C16: on a symmetric square `V × V` matrix and vertices `s`, `u` below
`V`, both runs return, `u` is in the output of `BFS(s, m)` exactly when `s` is
in the output of `BFS(u, m)`, and in that case the two outputs have the same
vertices. -/
theorem BFS_symmetric_outputs (m : List (List Int)) (V s u : Nat)
    (hsq : Square m V) (hs : s < V) (hu : u < V)
    (hsym : ∀ i, i < V → ∀ j, j < V → entry m i j = entry m j i) :
    ∃ a b, BFS (s : Int) m = .ok a ∧ BFS (u : Int) m = .ok b ∧
      (u ∈ a.out ↔ s ∈ b.out) ∧
      (u ∈ a.out → ∀ x, x ∈ a.out ↔ x ∈ b.out) := by
  have hedge : ∀ i j, i < V → j < V → edge m i j = edge m j i := by
    intro i j hi hj
    rw [edge_eq_entry, edge_eq_entry, hsym i hi j hj]
  obtain ⟨a, hra, ha⟩ := BFS_mem_iff hsq hs
  obtain ⟨b, hrb, hb⟩ := BFS_mem_iff hsq hu
  refine ⟨a, b, hra, hrb, ?_, ?_⟩
  · rw [ha u, hb s]
    constructor
    · rintro ⟨k, hk⟩; exact ⟨k, hk.symm hedge⟩
    · rintro ⟨k, hk⟩; exact ⟨k, hk.symm hedge⟩
  · intro hua x
    obtain ⟨k, hk⟩ := (ha u).mp hua
    rw [ha x, hb x]
    constructor
    · rintro ⟨j, hj⟩; exact ⟨k + j, (hk.symm hedge).trans hj⟩
    · rintro ⟨j, hj⟩; exact ⟨k + j, hk.trans hj⟩

/-- Witness of claim C16 on the three-vertex matrix, `s = 0` and `u = 1`. -/
theorem BFS_symmetric_outputs_witness :
    Square m3 3 ∧ 0 < 3 ∧ 1 < 3 ∧
      (∀ i, i < 3 → ∀ j, j < 3 → entry m3 i j = entry m3 j i) ∧
      output (BFS ((1 : Nat) : Int) m3) = some [1, 0] ∧
      ∃ a b, BFS ((0 : Nat) : Int) m3 = .ok a ∧ BFS ((1 : Nat) : Int) m3 = .ok b ∧
        (1 ∈ a.out ↔ 0 ∈ b.out) ∧
        (1 ∈ a.out → ∀ x, x ∈ a.out ↔ x ∈ b.out) :=
  ⟨by decide, by decide, by decide, by decide, by decide,
    BFS_symmetric_outputs m3 3 0 1 (by decide) (by decide) (by decide) (by decide)⟩

/-- Claim C17: on two square `V × V` matrices `A` and `B` with `A[i][j] == 1`
exactly when `B[i][j] == 1`, and a start `s < V`, both runs return and emit the
same sequence. -/
theorem BFS_only_ones_matter (A B : List (List Int)) (V s : Nat)
    (hA : Square A V) (hB : Square B V) (hs : s < V)
    (hiff : ∀ i, i < V → ∀ j, j < V → (entry A i j = some 1 ↔ entry B i j = some 1)) :
    ∃ a b, BFS (s : Int) A = .ok a ∧ BFS (s : Int) B = .ok b ∧ a.out = b.out := by
  apply BFS_congr hA hB hs
  intro i j hi hj _
  rw [edge_eq_entry, edge_eq_entry]
  exact decide_eq_decide.mpr (hiff i hi j hj)

/-- Witness of claim C17: the entries `2` and `-1` of `m3odd` are no edges, and
the output is that of `m3`. -/
theorem BFS_only_ones_matter_witness :
    Square m3odd 3 ∧ Square m3 3 ∧ 0 < 3 ∧
      (∀ i, i < 3 → ∀ j, j < 3 → (entry m3odd i j = some 1 ↔ entry m3 i j = some 1)) ∧
      output (BFS ((0 : Nat) : Int) m3odd) = some [0, 1] ∧
      ∃ a b, BFS ((0 : Nat) : Int) m3odd = .ok a ∧ BFS ((0 : Nat) : Int) m3 = .ok b ∧
        a.out = b.out :=
  ⟨by decide, by decide, by decide, by decide, by decide,
    BFS_only_ones_matter m3odd m3 3 0 (by decide) (by decide) (by decide) (by decide)⟩

/-- Claim C18: on two square `V × V` matrices `A` and `B` that agree on every
off-diagonal entry, and a start `s < V`, both runs return and emit the same
sequence. -/
theorem BFS_ignores_self_loops (A B : List (List Int)) (V s : Nat)
    (hA : Square A V) (hB : Square B V) (hs : s < V)
    (hoff : ∀ i, i < V → ∀ j, j < V → i ≠ j → entry A i j = entry B i j) :
    ∃ a b, BFS (s : Int) A = .ok a ∧ BFS (s : Int) B = .ok b ∧ a.out = b.out := by
  apply BFS_congr hA hB hs
  intro i j hi hj hij
  rw [edge_eq_entry, edge_eq_entry, hoff i hi j hj hij]

/-- Witness of claim C18: `m3` and `m3loops` differ on the diagonal only. -/
theorem BFS_ignores_self_loops_witness :
    Square m3 3 ∧ Square m3loops 3 ∧ 0 < 3 ∧
      (∀ i, i < 3 → ∀ j, j < 3 → i ≠ j → entry m3 i j = entry m3loops i j) ∧
      output (BFS ((0 : Nat) : Int) m3loops) = some [0, 1] ∧
      ∃ a b, BFS ((0 : Nat) : Int) m3 = .ok a ∧ BFS ((0 : Nat) : Int) m3loops = .ok b ∧
        a.out = b.out :=
  ⟨by decide, by decide, by decide, by decide, by decide,
    BFS_ignores_self_loops m3 m3loops 3 0 (by decide) (by decide) (by decide)
      (by decide)⟩

end Lab
